import Mathlib

/-!
Verification of the JSON tree index (`src/lib/parser/tree.ts`).

The TypeScript source keeps a flat map from a path-derived identifier to a
node record.  The identifier scheme (`@/lib/idgen`) and the node helper
module (`./node`) are not part of the provided sources; following the spec
(§4.1) identifiers are serialized paths, so the embedding represents an
identifier directly as the list of path segments (root = empty list).
Mutable JS objects shared between the map and local variables are modelled
by value-passing plus explicit write-back into the map keyed by the node id;
the two coincide whenever every map entry stores a node whose `id` field
equals its key (the `IdOk` hypothesis used by the theorems).

JS numbers are modelled as `Int`; string lengths and offsets count
characters (`String.length`), matching JS `.length` on all BMP text.
Recursive procedures over the flat map are given explicit fuel; the
top-level entry points instantiate the fuel with `nodeMap.length + 1`,
which is shown sufficient for well-formed trees.
-/

namespace Json4u

inductive NodeType where
  | object
  | array
  | string
  | number
  | boolean
  | null
deriving DecidableEq

/-- One JSON value record, as in `./node` (modelled from the spec §3: the
module itself is not under `src/`). -/
structure Node where
  id : List String
  type : NodeType
  rawValue : Option String
  childrenKeys : List String
  offset : Int
  length : Int
  boundOffset : Int
  boundLength : Int
deriving DecidableEq

/-- Modelled from the spec: root identifier of `@/lib/idgen` (the module is
absent from `src/`); identifiers are serialized paths, the root path is the
empty sequence. -/
def rootMarker : List String := []

/-- Modelled from the spec: `id → parentId` strips the last path segment
(`@/lib/idgen`, absent from `src/`). -/
def getParentId (id : List String) : List String := id.dropLast

/-- Modelled from the spec: child identifier derived from a parent node plus
a key (`./node` / `@/lib/idgen`, absent from `src/`). -/
def getChildId (node : Node) (key : String) : List String := node.id ++ [key]

/-- Modelled from the spec: ordered child-key list accessor (`./node`,
absent from `src/`).  Returned by value, so sorting the returned list does
not alter the node (spec §4.6: sort reorders only the emitted key order). -/
def getChildrenKeys (node : Node) : List String := node.childrenKeys

/-- Modelled from the spec: raw token accessor (`./node`, absent from
`src/`); may be absent. -/
def getRawValue (node : Node) : Option String := node.rawValue

/-- Modelled from the spec §4.2: containers are `object`/`array`. -/
def isIterable (node : Node) : Bool :=
  decide (node.type = NodeType.object) || decide (node.type = NodeType.array)

/-- Modelled from the spec §4.2: non-empty ordered child-key list. -/
def hasChildren (node : Node) : Bool := !(getChildrenKeys node).isEmpty

/-- Modelled from the spec §4.2: the root carries the root identifier. -/
def isRoot (node : Node) : Bool := decide (node.id = rootMarker)

/-- Modelled from the spec §3 invariant: `boundOffset + boundLength =
offset + length` (`computeAndSetBoundLength` of `./node`, absent from
`src/`). -/
def computeAndSetBoundLength (node : Node) : Node :=
  { node with boundLength := node.offset + node.length - node.boundOffset }

/-- Association-list lookup for the node map (first binding wins). -/
def lookupA (l : List ((List String) × Node)) (k : List String) : Option Node :=
  match l with
  | [] => none
  | (k2, v) :: rest => if k2 = k then some v else lookupA rest k

/-- Replace the value of the first binding of `k`; a JS in-place mutation of
a node that is stored in the map.  Never inserts a new binding. -/
def updateA (l : List ((List String) × Node)) (k : List String) (v : Node) :
    List ((List String) × Node) :=
  match l with
  | [] => []
  | (k2, v2) :: rest => if k2 = k then (k2, v) :: rest else (k2, v2) :: updateA rest k v

/-- The tree: flat node map plus the source text (`Tree` class,
`tree.ts`).  `errors` models the optional diagnostics list (`undefined` and
`[]` are both "no errors", as in lodash `isEmpty`); `nestIds` models the
optional `nestNodeMap`, of which the code only ever consults membership. -/
structure Tree where
  nodeMap : List ((List String) × Node)
  text : String
  errors : List String
  version : Option Int
  nestIds : List (List String)
deriving DecidableEq

def Tree.node (t : Tree) (id : List String) : Option Node := lookupA t.nodeMap id

def Tree.root (t : Tree) : Option Node := t.node rootMarker

def Tree.getChild (t : Tree) (node : Node) (key : String) : Option Node :=
  t.node (getChildId node key)

def Tree.hasError (t : Tree) : Bool := !t.errors.isEmpty

def Tree.valid (t : Tree) : Bool := t.root.isSome && !t.hasError

def Tree.isGraphNode (_t : Tree) (node : Node) : Bool := isRoot node || hasChildren node

def Tree.setNode (t : Tree) (n : Node) : Tree :=
  { t with nodeMap := updateA t.nodeMap n.id n }

/-- `inBound` closure of `findNodeAtOffset`: half-open on the left,
`(boundOffset, boundOffset + boundLength]`. -/
def inBound (off : Int) (n : Node) : Bool :=
  decide (n.boundOffset < off) && decide (off ≤ n.boundOffset + n.boundLength)

/-- Outcome of the binary-search loop inside `doFind`: a child whose bound
interval contains the offset, loop exit (`left > right`), or the JS crash
on a missing child (`this.getChild(node, keys[mid])!`). -/
inductive SearchOutcome where
  | found (c : Node)
  | stop
  | missing
deriving DecidableEq

/-- The `while (left <= right)` binary search of `findNodeAtOffset`,
with fuel (`keys.length + 1` always suffices: the window shrinks each
round). `mid = (left + right) / 2` is floor division, as `Math.floor`. -/
def searchChild (t : Tree) (node : Node) (off : Int) (keys : List String) :
    Nat → Int → Int → SearchOutcome
  | 0, _, _ => SearchOutcome.missing
  | fuel + 1, left, right =>
    if left ≤ right then
      let mid : Int := (left + right) / 2
      match keys.get? mid.toNat with
      | none => SearchOutcome.missing
      | some k =>
        match t.getChild node k with
        | none => SearchOutcome.missing
        | some child =>
          if inBound off child then SearchOutcome.found child
          else if child.boundOffset + child.boundLength < off then
            searchChild t node off keys fuel (mid + 1) right
          else
            searchChild t node off keys fuel left (mid - 1)
    else SearchOutcome.stop

/-- The recursive `doFind` of `findNodeAtOffset`.  The outer `Option` is the
crash/fuel-exhaustion layer (never reached on well-formed trees with the
fuel used by `findNodeAtOffset`); the inner `Option` is the JS
`undefined` result for an out-of-bound node. -/
def doFind (t : Tree) (off : Int) : Nat → Node → Option (Option Node)
  | 0, _ => none
  | fuel + 1, node =>
    if inBound off node then
      let keys := getChildrenKeys node
      match searchChild t node off keys (keys.length + 1) 0 ((keys.length : Int) - 1) with
      | SearchOutcome.found child =>
        match doFind t off fuel child with
        | none => none
        | some item => some (some (item.getD child))
      | SearchOutcome.stop => some (some node)
      | SearchOutcome.missing => none
    else some none

inductive FindKind where
  | node
  | key
  | value
deriving DecidableEq

/-- `Tree.findNodeAtOffset` (`tree.ts`). -/
def Tree.findNodeAtOffset (t : Tree) (off : Int) : Option (Node × FindKind) :=
  if t.valid then
    match t.root with
    | none => none
    | some r =>
      match doFind t off (t.nodeMap.length + 1) r with
      | some (some n) =>
        if t.isGraphNode n then some (n, FindKind.node)
        else
          some (n, if n.offset < off ∧ off ≤ n.offset + n.length
                   then FindKind.value else FindKind.key)
      | _ => none
  else none

inductive SortDir where
  | asc
  | desc
deriving DecidableEq

/-- `StringifyOptions` (extends `ParseOptions`): `format`, `sort`,
`tabWidth`, `pure`.  JS `undefined` is modelled by `none` / `false` / `0`
(the code reads `tabWidth` only through `options.tabWidth || 2`, which sends
both `undefined` and `0` to `2`). -/
structure StringifyOptions where
  format : Bool
  sort : Option SortDir
  tabWidth : Nat
  pure : Bool
deriving DecidableEq

/-- JS `.length` of a string, as an `Int` to match JS number arithmetic. -/
def strLen (s : String) : Int := (s.length : Int)

/-- `getGenTabsFn` (`tree.ts`): the returned closure yields
`repeat(" ", tabWidth)` repeated `level` times (the cache is a pure
memoization). -/
def getGenTabsFn (tabWidth : Nat) (level : Nat) : String :=
  String.join (List.replicate level (String.mk (List.replicate tabWidth ' ')))

/-- UTF-16-style lexicographic order on strings used by JS
`Array.prototype.sort()` with no comparator (code-point order; identical on
BMP text). -/
def charListLe : List Char → List Char → Bool
  | [], _ => true
  | _ :: _, [] => false
  | c :: cs, d :: ds =>
    if c.val < d.val then true
    else if d.val < c.val then false
    else charListLe cs ds

def strLeB (a b : String) : Bool := charListLe a.data b.data

def insertSorted (x : String) : List String → List String
  | [] => [x]
  | y :: ys => if strLeB x y then x :: y :: ys else y :: insertSorted x ys

/-- JS `keys.sort()` (stable, default string comparator). -/
def sortStr : List String → List String
  | [] => []
  | x :: xs => insertSorted x (sortStr xs)

/-- The child loop of `stringifyNode`.  `recur` is the recursive call with
one unit of fuel consumed.  A missing child (`this.getChild(node, key)!`
yielding `undefined`) would crash in JS; it is modelled by skipping the
child, and is ruled out by the well-formedness hypotheses of the theorems. -/
def stringifyChildren
    (recur : Tree → Node → Nat → Int → Int → String × Tree)
    (node : Node) (isObject isFormat : Bool) (genTabs : Nat → String)
    (indentLevel : Nat) (offset : Int) :
    List String → String → Tree → String × Tree
  | [], acc, t => (acc, t)
  | key :: rest, acc, t =>
    let acc1 := if isFormat then acc ++ "\n" ++ genTabs (indentLevel + 1) else acc
    let childBoundOffset := offset + strLen acc1
    let acc2 := if isObject then acc1 ++ "\"" ++ key ++ "\":" ++ (if isFormat then " " else "")
                else acc1
    let childOffset := offset + strLen acc2
    match t.getChild node key with
    | none => stringifyChildren recur node isObject isFormat genTabs indentLevel offset rest acc2 t
    | some child =>
      let res := recur t child (indentLevel + 1) childOffset childBoundOffset
      let acc3 := acc2 ++ res.1
      let acc4 := if !rest.isEmpty then acc3 ++ ","
                  else if isFormat then acc3 ++ "\n" ++ genTabs indentLevel
                  else acc3
      stringifyChildren recur node isObject isFormat genTabs indentLevel offset rest acc4 res.2

/-- `Tree.stringifyNode` (`tree.ts`).  The side-effecting writes on the
visited node objects are modelled by write-back into the map at the node's
id.  `boundOffset ?? node.offset` / `boundOffset ?? 0` always see a number
(the parameter defaults to `0`), so they reduce to `boundOffset`. -/
def stringifyNode (opts : StringifyOptions) :
    Nat → Tree → Node → Nat → Int → Int → String × Tree
  | 0, t, _, _, _, _ => ("", t)
  | fuel + 1, t, node, indentLevel, offset, boundOffset =>
    if !isIterable node then
      let stringified := (getRawValue node).getD ""
      if opts.pure then (stringified, t)
      else
        (stringified,
         t.setNode (computeAndSetBoundLength
           { node with length := strLen stringified, offset := offset,
                       boundOffset := boundOffset }))
    else
      let t1 := if opts.pure then t
                else t.setNode { node with boundOffset := boundOffset, offset := offset }
      let isFormat := opts.format
      let isObject := decide (node.type = NodeType.object)
      let keys0 := getChildrenKeys node
      let keys :=
        if isObject then
          match opts.sort with
          | some SortDir.asc => sortStr keys0
          | some SortDir.desc => (sortStr keys0).reverse
          | none => keys0
        else keys0
      let genTabs := getGenTabsFn (if opts.tabWidth = 0 then 2 else opts.tabWidth)
      let res := stringifyChildren (fun t2 n lvl o b => stringifyNode opts fuel t2 n lvl o b)
                   node isObject isFormat genTabs indentLevel offset keys
                   (if isObject then "\x7b" else "[") t1
      let s := res.1 ++ (if isObject then "\x7d" else "]")
      if opts.pure then (s, res.2)
      else
        (s, res.2.setNode (computeAndSetBoundLength
             { node with boundOffset := boundOffset, offset := offset, length := strLen s }))

/-- `Tree.stringify` (`tree.ts`): serializes from the root, stores the text,
and then sets `root.length = this.text.length` (unconditionally, also in
pure mode).  The final in-place mutation of the captured `root` object is
the map entry at the root marker. -/
def Tree.stringify (t : Tree) (opts : StringifyOptions) : String × Tree :=
  match t.root with
  | none => ("", t)
  | some r =>
    let res := stringifyNode opts (t.nodeMap.length + 1) t r 0 0 0
    let t2 : Tree := { res.2 with text := res.1 }
    match t2.node rootMarker with
    | some r2 =>
      (res.1, { t2 with nodeMap := updateA t2.nodeMap rootMarker { r2 with length := strLen res.1 } })
    | none => (res.1, t2)

/-- `jsonc.Edit`: a text replacement against the original text. -/
structure Edit where
  offset : Int
  length : Int
  content : String
deriving DecidableEq

def applyEdit (s : String) (e : Edit) : String :=
  s.take e.offset.toNat ++ e.content ++ s.drop (e.offset + e.length).toNat

def insertEditDesc (e : Edit) : List Edit → List Edit
  | [] => [e]
  | e2 :: rest => if e2.offset ≤ e.offset then e :: e2 :: rest else e2 :: insertEditDesc e rest

def sortEditsDesc : List Edit → List Edit
  | [] => []
  | e :: rest => insertEditDesc e (sortEditsDesc rest)

/-- Modelled from the spec: `jsonc.applyEdits` (third-party
`jsonc-parser`, not part of the sources) applies a batch of non-overlapping
`{offset, length, content}` replacements to the original text; modelled by
splicing the edits in decreasing offset order. -/
def applyEdits (s : String) (edits : List Edit) : String :=
  (sortEditsDesc edits).foldl applyEdit s

/-- The `this.mapChildren(node, fixOffset)` loop of `stringifyNestNodes`.
A missing child would crash in JS and is modelled as skipped. -/
def fixChildren (recur : Tree → Node → Int → List Edit → Tree × Int × List Edit)
    (node : Node) : List String → Tree → Int → List Edit → Tree × Int × List Edit
  | [], t, acc, edits => (t, acc, edits)
  | key :: rest, t, acc, edits =>
    match t.getChild node key with
    | none => fixChildren recur node rest t acc edits
    | some c =>
      let res := recur t c acc edits
      fixChildren recur node rest res.1 res.2.1 res.2.2

/-- The recursive `fixOffset` closure of `stringifyNestNodes` (`tree.ts`).
In the nest branch the edit captures `node.offset`/`node.length` before
`stringifyNode` mutates the node (JS object-literal fields are evaluated
left to right).  In the other branch the node is shifted, the children are
visited, and then the node's lengths grow by the delta accumulated while
visiting them. -/
def fixOffset (opts : StringifyOptions) :
    Nat → Tree → Node → Int → List Edit → Tree × Int × List Edit
  | 0, t, _, acc, edits => (t, acc, edits)
  | fuel + 1, t, node, acc, edits =>
    if decide (node.id ∈ t.nestIds) then
      let res := stringifyNode opts (t.nodeMap.length + 1) t node 0
                   (node.offset + acc) (node.boundOffset + acc)
      (res.2, acc + (strLen res.1 - node.length),
       edits ++ [⟨node.offset, node.length, res.1⟩])
    else
      let node1 := { node with offset := node.offset + acc, boundOffset := node.boundOffset + acc }
      let t1 := t.setNode node1
      let res := fixChildren (fun t2 c a e => fixOffset opts fuel t2 c a e)
                   node1 (getChildrenKeys node1) t1 acc edits
      match res.1.node node1.id with
      | some n2 =>
        (res.1.setNode { n2 with length := n2.length + (res.2.1 - acc),
                                 boundLength := n2.boundLength + (res.2.1 - acc) },
         res.2.1, res.2.2)
      | none => (res.1, res.2.1, res.2.2)

/-- `Tree.stringifyNestNodes` (`tree.ts`).  A missing root would crash in
JS; modelled as a no-op. -/
def Tree.stringifyNestNodes (t : Tree) (opts : StringifyOptions) : Tree :=
  match t.root with
  | none => t
  | some r =>
    let res := fixOffset opts (t.nodeMap.length + 1) t r 0 []
    { res.1 with text := (applyEdits res.1.text res.2.2).trim }

/-- Duplicate removal retaining the first occurrence of each element,
relative to an accumulator of already-seen elements. -/
def dedupKeep (seen : List String) : List String → List String
  | [] => []
  | x :: xs => if x ∈ seen then dedupKeep seen xs else x :: dedupKeep (x :: seen) xs

/-- lodash `union`: concatenation with duplicates removed, keeping first
occurrences. -/
def unionL (a b : List String) : List String := dedupKeep [] (a ++ b)

/-- The recursive `doIsEquals` closure of `isEquals` (`tree.ts`). -/
def doIsEquals (tree1 tree2 : Tree) : Nat → Node → Node → Bool
  | 0, _, _ => false
  | fuel + 1, node1, node2 =>
    if node1.type ≠ node2.type then false
    else
      let keys := unionL (getChildrenKeys node1) (getChildrenKeys node2)
      if keys.isEmpty then decide (getRawValue node1 = getRawValue node2)
      else
        keys.all fun key =>
          match tree1.getChild node1 key, tree2.getChild node2 key with
          | some child1, some child2 => doIsEquals tree1 tree2 fuel child1 child2
          | _, _ => false

/-- `isEquals` (`tree.ts`).  A missing root would crash in JS
(`undefined.type`); modelled as `false`. -/
def isEquals (tree1 tree2 : Tree) : Bool :=
  match tree1.root, tree2.root with
  | some r1, some r2 =>
    doIsEquals tree1 tree2 (tree1.nodeMap.length + tree2.nodeMap.length + 1) r1 r2
  | _, _ => false

/-- A path segment of the JSON-path-like grammar of `findNodeByPath`
(spec §4.5). -/
inductive Seg where
  | key (k : String)
  | idx (i : Nat)
deriving DecidableEq

/-- Characters of a dot-separated key, up to the next `.` or `[`. -/
def takeKeyChars : List Char → List Char × List Char
  | [] => ([], [])
  | c :: rest =>
    if c = '.' ∨ c = '[' then ([], c :: rest)
    else
      let p := takeKeyChars rest
      (c :: p.1, p.2)

/-- Characters of a bracket-quoted key, up to the closing quote. -/
def takeQuoted : List Char → Option (List Char × List Char)
  | [] => none
  | c :: rest =>
    if c = '"' then some ([], rest)
    else (takeQuoted rest).map (fun p => (c :: p.1, p.2))

def takeDigits : List Char → List Char × List Char
  | [] => ([], [])
  | c :: rest =>
    if c.isDigit then
      let p := takeDigits rest
      (c :: p.1, p.2)
    else ([], c :: rest)

/-- Modelled from the spec §4.5: segments after the head of a path —
dot-separated keys, bracket-indexed array positions, bracket-quoted keys. -/
def parseSegs : Nat → List Char → Option (List Seg)
  | 0, _ => none
  | _, [] => some []
  | fuel + 1, c :: rest =>
    if c = '.' then
      let p := takeKeyChars rest
      if p.1.isEmpty then none
      else (parseSegs fuel p.2).map (fun segs => Seg.key (String.mk p.1) :: segs)
    else if c = '[' then
      match rest with
      | '"' :: rest2 =>
        match takeQuoted rest2 with
        | some (content, ']' :: rest3) =>
          (parseSegs fuel rest3).map (fun segs => Seg.key (String.mk content) :: segs)
        | _ => none
      | _ =>
        match takeDigits rest with
        | ([], _) => none
        | (ds, ']' :: rest3) =>
          match (String.mk ds).toNat? with
          | some n => (parseSegs fuel rest3).map (fun segs => Seg.idx n :: segs)
          | none => none
        | (_, _) => none
    else none

/-- Modelled from the spec §4.5: parse a path expression — an optional
leading `$` (or the empty string) denotes the root, then segments. -/
def parsePath (s : String) : Option (List Seg) :=
  match s.data with
  | [] => some []
  | '$' :: rest => parseSegs (rest.length + 1) rest
  | '[' :: _ => parseSegs (s.data.length + 1) s.data
  | '.' :: _ => none
  | cs =>
    let p := takeKeyChars cs
    if p.1.isEmpty then none
    else (parseSegs (p.2.length + 1) p.2).map (fun segs => Seg.key (String.mk p.1) :: segs)

/-- Modelled from the spec §4.5: the walk of `findNodeByPath` — one
`getChild` per segment, failing closed: a key segment requires an object,
an index segment requires an array (an index is addressed by its decimal
string, matching the identifier scheme), and any miss aborts. -/
def walkPath (t : Tree) : Node → List Seg → Option Node
  | node, [] => some node
  | node, Seg.key k :: rest =>
    if node.type = NodeType.object then
      match t.getChild node k with
      | some c => walkPath t c rest
      | none => none
    else none
  | node, Seg.idx i :: rest =>
    if node.type = NodeType.array then
      match t.getChild node (toString i) with
      | some c => walkPath t c rest
      | none => none
    else none

/-- Modelled from the spec: `Tree.findNodeByPath` has no definition under
`src/` (only its test file and a call site are provided); modelled from
spec §4.5 as a pure read that parses the path and walks the tree from the
root. -/
def Tree.findNodeByPath (t : Tree) (path : String) : Option Node :=
  match t.root with
  | none => none
  | some r =>
    match parsePath path with
    | some segs => walkPath t r segs
    | none => none

/-! ### Association-list and tree-update lemmas -/

theorem lookupA_mem {l : List ((List String) × Node)} {k : List String} {v : Node}
    (h : lookupA l k = some v) : (k, v) ∈ l := by
  induction l with
  | nil => simp [lookupA] at h
  | cons p rest ih =>
    obtain ⟨k2, v2⟩ := p
    by_cases hk : k2 = k
    · subst hk
      simp [lookupA] at h
      simp [h]
    · simp [lookupA, hk] at h
      exact List.mem_cons_of_mem _ (ih h)

theorem lookupA_updateA (l : List ((List String) × Node)) (k : List String) (v : Node)
    (k2 : List String) :
    lookupA (updateA l k v) k2 =
      if k2 = k then (lookupA l k).map (fun _ => v) else lookupA l k2 := by
  induction l with
  | nil => simp [updateA, lookupA]
  | cons p rest ih =>
    obtain ⟨a, b⟩ := p
    by_cases h1 : a = k
    · subst h1
      by_cases h2 : k2 = a
      · subst h2
        simp [updateA, lookupA]
      · have h3 : a ≠ k2 := fun h => h2 h.symm
        simp [updateA, lookupA, h2, h3]
    · by_cases h2 : a = k2
      · subst h2
        simp [updateA, lookupA, h1]
      · simp [updateA, lookupA, h1, h2, ih]

theorem updateA_self {l : List ((List String) × Node)} {k : List String} {v : Node}
    (h : lookupA l k = some v) : updateA l k v = l := by
  induction l with
  | nil => simp [lookupA] at h
  | cons p rest ih =>
    obtain ⟨a, b⟩ := p
    by_cases h1 : a = k
    · subst h1
      simp [lookupA] at h
      simp [updateA, h]
    · simp [lookupA, h1] at h
      simp [updateA, h1, ih h]

theorem map_fst_updateA (l : List ((List String) × Node)) (k : List String) (v : Node) :
    (updateA l k v).map Prod.fst = l.map Prod.fst := by
  induction l with
  | nil => simp [updateA]
  | cons p rest ih =>
    obtain ⟨a, b⟩ := p
    by_cases h1 : a = k <;> simp [updateA, h1, ih]

theorem length_updateA (l : List ((List String) × Node)) (k : List String) (v : Node) :
    (updateA l k v).length = l.length := by
  have h := congrArg List.length (map_fst_updateA l k v)
  simpa using h

theorem lookupA_none_iff (l : List ((List String) × Node)) (k : List String) :
    lookupA l k = none ↔ k ∉ l.map Prod.fst := by
  induction l with
  | nil => simp [lookupA]
  | cons p rest ih =>
    obtain ⟨a, b⟩ := p
    by_cases h1 : a = k
    · subst h1
      rw [lookupA, if_pos rfl, List.map_cons]
      constructor
      · intro h
        exact absurd h (Option.some_ne_none b)
      · intro h
        exact absurd (List.mem_cons_self _ _) h
    · rw [lookupA, if_neg h1, ih, List.map_cons]
      constructor
      · intro hk h
        rcases List.mem_cons.mp h with h | h
        · exact h1 h.symm
        · exact hk h
      · intro hk hm
        exact hk (List.mem_cons_of_mem _ hm)

theorem setNode_node (t : Tree) (n : Node) (id : List String) :
    (t.setNode n).node id = if id = n.id then (t.node id).map (fun _ => n) else t.node id := by
  have h := lookupA_updateA t.nodeMap n.id n id
  by_cases h1 : id = n.id
  · subst h1
    simpa [Tree.setNode, Tree.node] using h
  · simpa [Tree.setNode, Tree.node, h1] using h

theorem setNode_node_ne (t : Tree) (n : Node) (id : List String) (h : id ≠ n.id) :
    (t.setNode n).node id = t.node id := by
  simp [setNode_node, h]

theorem setNode_node_self (t : Tree) (n : Node) {e : Node} (h : t.node n.id = some e) :
    (t.setNode n).node n.id = some n := by
  simp [setNode_node, h]

theorem setNode_eq_self (t : Tree) (n : Node) (h : t.node n.id = some n) : t.setNode n = t := by
  have h2 := updateA_self (l := t.nodeMap) (k := n.id) (v := n) h
  cases t
  simp [Tree.setNode] at h2 ⊢
  exact h2

/-- Everything about a tree except the node-map values: the source text, the
diagnostics, the version, the pending set, and the ordered list of map
keys.  All mutating passes preserve it. -/
def sameShape (t t' : Tree) : Prop :=
  t'.text = t.text ∧ t'.errors = t.errors ∧ t'.version = t.version ∧
  t'.nestIds = t.nestIds ∧ t'.nodeMap.map Prod.fst = t.nodeMap.map Prod.fst

theorem sameShape_refl (t : Tree) : sameShape t t := ⟨rfl, rfl, rfl, rfl, rfl⟩

theorem sameShape_trans {t1 t2 t3 : Tree} (h1 : sameShape t1 t2) (h2 : sameShape t2 t3) :
    sameShape t1 t3 := by
  obtain ⟨a1, b1, c1, d1, e1⟩ := h1
  obtain ⟨a2, b2, c2, d2, e2⟩ := h2
  exact ⟨a2.trans a1, b2.trans b1, c2.trans c1, d2.trans d1, e2.trans e1⟩

theorem sameShape_setNode (t : Tree) (n : Node) : sameShape t (t.setNode n) :=
  ⟨rfl, rfl, rfl, rfl, map_fst_updateA t.nodeMap n.id n⟩

theorem sameShape_node_none {t t' : Tree} (h : sameShape t t') (id : List String)
    (hn : t.node id = none) : t'.node id = none := by
  rw [Tree.node, lookupA_none_iff] at hn ⊢
  rw [h.2.2.2.2]
  exact hn

theorem sameShape_isSome {t t' : Tree} (h : sameShape t t') (id : List String)
    (hn : (t.node id).isSome) : (t'.node id).isSome := by
  cases he : t'.node id with
  | some v => simp
  | none =>
    rw [Tree.node, lookupA_none_iff, h.2.2.2.2, ← lookupA_none_iff] at he
    rw [Tree.node] at hn
    simp [he] at hn

theorem stringifyChildren_shape
    {recur : Tree → Node → Nat → Int → Int → String × Tree}
    (hrec : ∀ t n lvl o b, sameShape t (recur t n lvl o b).2)
    (node : Node) (isObject isFormat : Bool) (genTabs : Nat → String)
    (indentLevel : Nat) (offset : Int) :
    ∀ (keys : List String) (acc : String) (t : Tree),
      sameShape t (stringifyChildren recur node isObject isFormat genTabs indentLevel offset
        keys acc t).2 := by
  intro keys
  induction keys with
  | nil => intro acc t; exact sameShape_refl t
  | cons key rest ih =>
    intro acc t
    rw [stringifyChildren]
    cases hc : t.getChild node key with
    | none =>
      simp only [hc]
      exact ih _ _
    | some child =>
      simp only [hc]
      exact sameShape_trans (hrec t child _ _ _) (ih _ _)

theorem stringifyNode_shape (opts : StringifyOptions) :
    ∀ (fuel : Nat) (t : Tree) (node : Node) (lvl : Nat) (off b : Int),
      sameShape t (stringifyNode opts fuel t node lvl off b).2 := by
  intro fuel
  induction fuel with
  | zero => intro t node lvl off b; exact sameShape_refl t
  | succ fuel ih =>
    intro t node lvl off b
    rw [stringifyNode]
    by_cases hit : isIterable node = true
    · by_cases hp : opts.pure = true
      · simp [hit, hp]
        exact stringifyChildren_shape (fun t2 n l o b2 => ih t2 n l o b2) _ _ _ _ _ _ _ _ _
      · simp only [Bool.not_eq_true] at hp
        simp [hit, hp]
        exact sameShape_trans (sameShape_setNode t _)
          (sameShape_trans
            (stringifyChildren_shape (fun t2 n l o b2 => ih t2 n l o b2) _ _ _ _ _ _ _ _ _)
            (sameShape_setNode _ _))
    · simp only [Bool.not_eq_true] at hit
      by_cases hp : opts.pure = true
      · simp [hit, hp]
        exact sameShape_refl t
      · simp only [Bool.not_eq_true] at hp
        simp [hit, hp]
        exact sameShape_setNode t _

theorem fixChildren_shape
    {recur : Tree → Node → Int → List Edit → Tree × Int × List Edit}
    (hrec : ∀ t n a e, sameShape t (recur t n a e).1) (node : Node) :
    ∀ (keys : List String) (t : Tree) (acc : Int) (edits : List Edit),
      sameShape t (fixChildren recur node keys t acc edits).1 := by
  intro keys
  induction keys with
  | nil => intro t acc edits; exact sameShape_refl t
  | cons key rest ih =>
    intro t acc edits
    rw [fixChildren]
    cases hc : t.getChild node key with
    | none =>
      simp only [hc]
      exact ih _ _ _
    | some c =>
      simp only [hc]
      exact sameShape_trans (hrec t c acc edits) (ih _ _ _)

theorem fixOffset_shape (opts : StringifyOptions) :
    ∀ (fuel : Nat) (t : Tree) (node : Node) (acc : Int) (edits : List Edit),
      sameShape t (fixOffset opts fuel t node acc edits).1 := by
  intro fuel
  induction fuel with
  | zero => intro t node acc edits; exact sameShape_refl t
  | succ fuel ih =>
    intro t node acc edits
    rw [fixOffset]
    by_cases hm : node.id ∈ t.nestIds
    · simp [hm]
      exact stringifyNode_shape opts _ t node 0 _ _
    · simp [hm]
      split
      · exact sameShape_trans
          (sameShape_trans (sameShape_setNode t _)
            (fixChildren_shape (fun t2 n a e => ih t2 n a e) _ _ _ _ _))
          (sameShape_setNode _ _)
      · exact sameShape_trans (sameShape_setNode t _)
          (fixChildren_shape (fun t2 n a e => ih t2 n a e) _ _ _ _ _)

/-! ### The offset invariant (spec §3) and write-tracking -/

/-- Spec §3 invariant: `boundOffset <= offset` and
`boundOffset + boundLength == offset + length`. -/
def offInv (n : Node) : Prop :=
  n.boundOffset ≤ n.offset ∧ n.boundOffset + n.boundLength = n.offset + n.length

instance (n : Node) : Decidable (offInv n) := by
  unfold offInv
  infer_instance

/-- After a pass from `t` to `t'`, every map entry is either untouched or
satisfies the offset invariant. -/
def touchInv (t t' : Tree) : Prop :=
  ∀ id, t'.node id = t.node id ∨ ∃ n', t'.node id = some n' ∧ offInv n'

theorem touchInv_refl (t : Tree) : touchInv t t := fun _ => Or.inl rfl

theorem touchInv_trans {t1 t2 t3 : Tree} (h12 : touchInv t1 t2) (h23 : touchInv t2 t3) :
    touchInv t1 t3 := by
  intro id
  rcases h23 id with he | ⟨n, hn, hi⟩
  · rcases h12 id with he2 | ⟨n, hn, hi⟩
    · exact Or.inl (he.trans he2)
    · exact Or.inr ⟨n, he.trans hn, hi⟩
  · exact Or.inr ⟨n, hn, hi⟩

theorem touchInv_setNode (t : Tree) (n : Node) (hi : offInv n) : touchInv t (t.setNode n) := by
  intro id
  by_cases h : id = n.id
  · subst h
    rw [setNode_node, if_pos rfl]
    cases he : t.node n.id with
    | none => exact Or.inl (by simp)
    | some e => exact Or.inr ⟨n, by simp, hi⟩
  · rw [setNode_node_ne _ _ _ h]
    exact Or.inl rfl

theorem offInv_computed (n : Node) (h : n.boundOffset ≤ n.offset) :
    offInv (computeAndSetBoundLength n) := by
  constructor
  · simpa [computeAndSetBoundLength] using h
  · simp [computeAndSetBoundLength]

theorem strLen_append (a b : String) : strLen (a ++ b) = strLen a + strLen b := by
  simp [strLen, String.length_append]

theorem strLen_nonneg (a : String) : 0 ≤ strLen a := by
  simp [strLen]

/-- In pure mode the stringifier returns the tree unchanged. -/
theorem stringifyChildren_pure
    {recur : Tree → Node → Nat → Int → Int → String × Tree}
    (hrec : ∀ t n lvl o b, (recur t n lvl o b).2 = t)
    (node : Node) (isObject isFormat : Bool) (genTabs : Nat → String)
    (indentLevel : Nat) (offset : Int) :
    ∀ (keys : List String) (acc : String) (t : Tree),
      (stringifyChildren recur node isObject isFormat genTabs indentLevel offset
        keys acc t).2 = t := by
  intro keys
  induction keys with
  | nil => intro acc t; rfl
  | cons key rest ih =>
    intro acc t
    rw [stringifyChildren]
    cases hc : t.getChild node key with
    | none =>
      simp only [hc]
      exact ih _ _
    | some child =>
      simp only [hc, hrec]
      exact ih _ _

theorem stringifyNode_pure (opts : StringifyOptions) (hp : opts.pure = true) :
    ∀ (fuel : Nat) (t : Tree) (node : Node) (lvl : Nat) (off b : Int),
      (stringifyNode opts fuel t node lvl off b).2 = t := by
  intro fuel
  induction fuel with
  | zero => intro t node lvl off b; rfl
  | succ fuel ih =>
    intro t node lvl off b
    rw [stringifyNode]
    by_cases hit : isIterable node = true
    · simp [hit, hp]
      exact stringifyChildren_pure (fun t2 n l o b2 => ih t2 n l o b2) _ _ _ _ _ _ _ _ _
    · simp only [Bool.not_eq_true] at hit
      simp [hit, hp]

theorem stringifyChildren_touchInv
    {recur : Tree → Node → Nat → Int → Int → String × Tree}
    (hrec : ∀ t n lvl o b, b ≤ o → touchInv t (recur t n lvl o b).2)
    (node : Node) (isObject isFormat : Bool) (genTabs : Nat → String)
    (indentLevel : Nat) (offset : Int) :
    ∀ (keys : List String) (acc : String) (t : Tree),
      touchInv t (stringifyChildren recur node isObject isFormat genTabs indentLevel offset
        keys acc t).2 := by
  intro keys
  induction keys with
  | nil => intro acc t; exact touchInv_refl t
  | cons key rest ih =>
    intro acc t
    rw [stringifyChildren]
    cases hc : t.getChild node key with
    | none =>
      simp only [hc]
      exact ih _ _
    | some child =>
      simp only [hc]
      refine touchInv_trans (hrec t child _ _ _ ?_) (ih _ _)
      by_cases hio : isObject = true
      · simp [hio, strLen_append]
        linarith [strLen_nonneg "\"", strLen_nonneg key, strLen_nonneg "\":",
          strLen_nonneg (if isFormat = true then " " else "")]
      · simp [hio]

theorem sameShape_symm {t t' : Tree} (h : sameShape t t') : sameShape t' t :=
  ⟨h.1.symm, h.2.1.symm, h.2.2.1.symm, h.2.2.2.1.symm, h.2.2.2.2.symm⟩

/-- Entering a container writes a provisional record, the children pass
touches other entries, and the final write restores the invariant: the
composite is untouched-or-invariant. -/
theorem touchInv_wrap (t t2 : Tree) (n1 v : Node) (hv : offInv v) (hid : v.id = n1.id)
    (h12 : touchInv (t.setNode n1) t2) (hsh : sameShape (t.setNode n1) t2) :
    touchInv t (t2.setNode v) := by
  intro id
  by_cases h : id = v.id
  · subst h
    rw [setNode_node, if_pos rfl]
    cases he : t2.node v.id with
    | none =>
      left
      have h1 : (t.setNode n1).node v.id = none := by
        cases hx : (t.setNode n1).node v.id with
        | none => rfl
        | some e =>
          have hs : (t2.node v.id).isSome := sameShape_isSome hsh _ (by simp [hx])
          rw [he] at hs
          simp at hs
      have h0 : t.node v.id = none := by
        rw [hid] at h1
        rw [setNode_node, if_pos rfl, Option.map_eq_none'] at h1
        rw [hid]
        exact h1
      simp [h0]
    | some e => exact Or.inr ⟨v, by simp, hv⟩
  · rw [setNode_node_ne _ _ _ h]
    rcases h12 id with he | ⟨n', hn', hi⟩
    · left
      rw [he, setNode_node_ne]
      rw [hid] at h
      exact h
    · exact Or.inr ⟨n', hn', hi⟩

/-- Claim C2 workhorse: a non-pure stringify pass leaves every map entry
untouched or satisfying the offset invariant, provided the initial bound
offset does not exceed the initial offset. -/
theorem stringifyNode_touchInv (opts : StringifyOptions) (hp : opts.pure = false) :
    ∀ (fuel : Nat) (t : Tree) (node : Node) (lvl : Nat) (off b : Int), b ≤ off →
      touchInv t (stringifyNode opts fuel t node lvl off b).2 := by
  intro fuel
  induction fuel with
  | zero => intro t node lvl off b _; exact touchInv_refl t
  | succ fuel ih =>
    intro t node lvl off b hb
    rw [stringifyNode]
    by_cases hit : isIterable node = true
    · simp [hit, hp]
      refine touchInv_wrap t _ { node with boundOffset := b, offset := off } _
        (offInv_computed _ (by simpa using hb)) (by simp [computeAndSetBoundLength]) ?_ ?_
      · exact stringifyChildren_touchInv (fun t2 n l o b2 hb2 => ih t2 n l o b2 hb2) _ _ _ _ _ _ _ _ _
      · exact stringifyChildren_shape (fun t2 n l o b2 => stringifyNode_shape opts fuel t2 n l o b2) _ _ _ _ _ _ _ _ _
    · simp only [Bool.not_eq_true] at hit
      simp [hit, hp]
      exact touchInv_setNode t _ (offInv_computed _ (by simpa using hb))

theorem setNode_node_isSome (t : Tree) (v : Node) (id : List String) (hid : v.id = id)
    (hs : (t.node id).isSome) : (t.setNode v).node id = some v := by
  subst hid
  rw [setNode_node, if_pos rfl]
  cases hx : t.node v.id with
  | none => rw [hx] at hs; simp at hs
  | some e => simp

theorem setNode_entry_of_isSome (t0 t1 : Tree) (n1 v : Node) (id : List String)
    (hsh : sameShape (t0.setNode n1) t1) (hid1 : n1.id = id) (hidv : v.id = id)
    (hs : (t0.node id).isSome) : (t1.setNode v).node id = some v := by
  refine setNode_node_isSome t1 v id hidv ?_
  refine sameShape_isSome hsh id ?_
  subst hid1
  rw [setNode_node, if_pos rfl]
  cases hx : t0.node n1.id with
  | none => rw [hx] at hs; simp at hs
  | some e => simp

/-- The value stored at the stringified node's id after a non-pure pass:
offsets from the call, length of the produced text, bound length restored. -/
theorem stringifyNode_entry (opts : StringifyOptions) (hp : opts.pure = false)
    (fuel : Nat) (t : Tree) (node : Node) (lvl : Nat) (off b : Int)
    (hs : (t.node node.id).isSome) :
    (stringifyNode opts (fuel + 1) t node lvl off b).2.node node.id =
      some (computeAndSetBoundLength
        { node with
            boundOffset := b
            offset := off
            length := strLen (stringifyNode opts (fuel + 1) t node lvl off b).1 }) := by
  rw [stringifyNode]
  by_cases hit : isIterable node = true
  · simp [hit, hp]
    exact setNode_entry_of_isSome t _ { node with boundOffset := b, offset := off } _ node.id
      (stringifyChildren_shape (fun t2 n l o b2 => stringifyNode_shape opts fuel t2 n l o b2)
        _ _ _ _ _ _ _ _ _)
      (by simp) (by simp [computeAndSetBoundLength]) hs
  · simp only [Bool.not_eq_true] at hit
    simp [hit, hp]
    exact setNode_node_isSome t _ node.id (by simp [computeAndSetBoundLength]) hs

/-! ### Concrete example trees used by witnesses and counterexamples -/

/-- Nodes of the tree for the text `{"a":1}`, with the spans a stringify
pass produces. -/
def exRoot : Node := ⟨rootMarker, NodeType.object, none, ["a"], 0, 7, 0, 7⟩

def exA : Node := ⟨["a"], NodeType.number, some "1", [], 5, 1, 1, 5⟩

def exTree : Tree := ⟨[(rootMarker, exRoot), (["a"], exA)], "\x7b\"a\":1\x7d", [], none, []⟩

/-- A tree with no root node and a parse diagnostic. -/
def exInvalidTree : Tree := ⟨[], "\x7b", ["unexpected end of input"], none, []⟩

/-- A leaf whose raw value is absent, plus a tree holding it. -/
def exNoRaw : Node := ⟨["x"], NodeType.null, none, [], 0, 0, 0, 0⟩

def exNoRawTree : Tree :=
  ⟨[(rootMarker, ⟨rootMarker, NodeType.object, none, ["x"], 0, 0, 0, 0⟩), (["x"], exNoRaw)],
   "", [], none, []⟩

def exOpts : StringifyOptions := ⟨false, none, 0, false⟩

def exPureOpts : StringifyOptions := ⟨false, none, 0, true⟩

/-! ### Claim C8 -/

/-- C8: for every tree that is not valid, `findNodeAtOffset` returns no
result for every offset rather than raising; validity holds iff the tree
has a root node and no errors. -/
theorem C8_invalid_tree_behavior :
    (∀ (t : Tree) (off : Int), t.valid = false → t.findNodeAtOffset off = none) ∧
    (∀ t : Tree, t.valid = true ↔ ((∃ r, t.root = some r) ∧ t.errors = [])) := by
  constructor
  · intro t off hv
    rw [Tree.findNodeAtOffset]
    simp [hv]
  · intro t
    rw [Tree.valid, Tree.hasError]
    simp [Option.isSome_iff_exists, List.isEmpty_iff]

/-- Witness for C8 at a concrete invalid tree. -/
theorem C8_witness : exInvalidTree.findNodeAtOffset 5 = none :=
  C8_invalid_tree_behavior.1 exInvalidTree 5 (by decide)

/-! ### Claim C10 -/

/-- C10: whenever the root's `boundOffset` is nonnegative (it is `0` after a
stringify pass), `findNodeAtOffset 0` returns no result, because the bound
test is strictly open on the left. -/
theorem C10_offset_zero_no_result :
    ∀ (t : Tree) (r : Node), t.root = some r → 0 ≤ r.boundOffset →
      t.findNodeAtOffset 0 = none := by
  intro t r hr hb
  rw [Tree.findNodeAtOffset]
  by_cases hv : t.valid = true
  · have hib : inBound 0 r = false := by
      have h1 : ¬ (r.boundOffset < (0 : Int)) := by omega
      simp [inBound, h1]
    have hd : doFind t 0 (t.nodeMap.length + 1) r = some none := by
      rw [doFind]
      simp [hib]
    simp [hv, hr, hd]
  · simp [hv]

/-- Witness for C10 at the concrete `{"a":1}` tree. -/
theorem C10_witness : exTree.findNodeAtOffset 0 = none :=
  C10_offset_zero_no_result exTree exRoot (by decide) (by decide)

/-! ### Claim C9 -/

/-- C9: a leaf whose raw value is absent is rendered as the empty string
(and, in a non-pure pass, stored with length `0`) instead of failing. -/
theorem C9_missing_raw_value :
    ∀ (opts : StringifyOptions) (fuel : Nat) (t : Tree) (node : Node) (lvl : Nat) (off b : Int),
      isIterable node = false → getRawValue node = none →
      (stringifyNode opts (fuel + 1) t node lvl off b).1 = "" ∧
      (opts.pure = false →
        (stringifyNode opts (fuel + 1) t node lvl off b).2 =
          t.setNode
            { node with
                offset := off
                length := 0
                boundOffset := b
                boundLength := off - b }) := by
  intro opts fuel t node lvl off b hit hraw
  rw [stringifyNode]
  constructor
  · by_cases hp : opts.pure = true <;> simp [hit, hraw, hp]
  · intro hp
    simp only [hit, hraw]
    simp [hp, computeAndSetBoundLength]
    congr 1
    have h0 : strLen "" = 0 := rfl
    simp [h0]

/-- Witness for C9 at a concrete raw-less leaf. -/
theorem C9_witness : (stringifyNode exOpts 1 exNoRawTree exNoRaw 0 3 2).1 = "" :=
  (C9_missing_raw_value exOpts 0 exNoRawTree exNoRaw 0 3 2 (by decide) (by decide)).1

/-! ### Claim C6 -/

theorem node_with_text (t : Tree) (s : String) (id : List String) :
    ({ t with text := s } : Tree).node id = t.node id := rfl

/-- A freshly parsed `{"a":1}` tree whose span fields are all still `0`. -/
def exC6Root : Node := ⟨rootMarker, NodeType.object, none, ["a"], 0, 0, 0, 0⟩

def exC6A : Node := ⟨["a"], NodeType.number, some "1", [], 0, 0, 0, 0⟩

def exC6Tree : Tree := ⟨[(rootMarker, exC6Root), (["a"], exC6A)], "", [], none, []⟩

/-- C6 counterexample: calling `Tree.stringify` in pure mode on the fresh
`{"a":1}` tree changes the root's `length` span field from `0` to `7`
(`stringify` runs `root.length = this.text.length` unconditionally), so the
claim that no visited node's span fields change is false as stated. -/
theorem C6_counterexample :
    ((exC6Tree.stringify exPureOpts).2.node rootMarker).map Node.length = some 7 ∧
    (exC6Tree.node rootMarker).map Node.length = some 0 := by
  decide

/-- C6 amended: in pure mode `stringifyNode` leaves every node's span
fields unchanged (the tree is returned as-is), and `Tree.stringify` leaves
every node unchanged except the root, whose `length` is set to the length
of the produced text. -/
theorem C6_pure_frame :
    (∀ (opts : StringifyOptions), opts.pure = true →
      ∀ (fuel : Nat) (t : Tree) (node : Node) (lvl : Nat) (off b : Int),
        (stringifyNode opts fuel t node lvl off b).2 = t) ∧
    (∀ (opts : StringifyOptions), opts.pure = true → ∀ (t : Tree) (id : List String),
      id ≠ rootMarker → (t.stringify opts).2.node id = t.node id) ∧
    (∀ (opts : StringifyOptions), opts.pure = true → ∀ (t : Tree) (r : Node),
      t.root = some r →
      (t.stringify opts).2.node rootMarker =
        some { r with length := strLen (t.stringify opts).1 }) := by
  refine ⟨fun opts hp => stringifyNode_pure opts hp, ?_, ?_⟩
  · intro opts hp t id hid
    rw [Tree.stringify]
    cases hr : t.root with
    | none => rfl
    | some r =>
      simp only [stringifyNode_pure opts hp, node_with_text]
      have hroot : t.node rootMarker = some r := hr
      simp only [hroot]
      show Tree.node _ id = t.node id
      rw [Tree.node]
      show lookupA (updateA t.nodeMap rootMarker _) id = t.node id
      rw [lookupA_updateA, if_neg hid]
      rfl
  · intro opts hp t r hr
    rw [Tree.stringify]
    cases hrr : t.root with
    | none => rw [hrr] at hr; exact absurd hr (by simp)
    | some r2 =>
      rw [hrr] at hr
      have hr2 : r2 = r := by injection hr
      subst hr2
      simp only [stringifyNode_pure opts hp, node_with_text]
      have hroot : t.node rootMarker = some r2 := hrr
      simp only [hroot]
      show Tree.node _ rootMarker = _
      rw [Tree.node]
      show lookupA (updateA t.nodeMap rootMarker _) rootMarker = _
      rw [lookupA_updateA, if_pos rfl]
      show (t.node rootMarker).map _ = _
      rw [hroot]
      rfl

/-- Witness for C6's amended theorem: the pure stringify of the fresh
`{"a":1}` tree stores the new text length on the root and nothing else. -/
theorem C6_witness :
    (exC6Tree.stringify exPureOpts).2.node rootMarker =
      some { exC6Root with length := strLen (exC6Tree.stringify exPureOpts).1 } :=
  C6_pure_frame.2.2 exPureOpts rfl exC6Tree exC6Root (by decide)

/-! ### Claim C5 -/

/-- Every map entry stores the node whose `id` equals its key: the
correspondence between the JS object identity of map values and write-back
by id. -/
def IdOk (t : Tree) : Prop := ∀ p ∈ t.nodeMap, p.2.id = p.1

theorem node_id_of_IdOk {t : Tree} (h : IdOk t) {id : List String} {v : Node}
    (hv : t.node id = some v) : v.id = id :=
  h (id, v) (lookupA_mem hv)

theorem mem_updateA {l : List ((List String) × Node)} {k : List String} {v : Node}
    {p : (List String) × Node} (hp : p ∈ updateA l k v) : p ∈ l ∨ p = (k, v) := by
  induction l with
  | nil => simp [updateA] at hp
  | cons q rest ih =>
    obtain ⟨a, b⟩ := q
    by_cases ha : a = k
    · rw [updateA, if_pos ha] at hp
      rcases List.mem_cons.mp hp with hq | hq
      · right; rw [hq, ha]
      · left; exact List.mem_cons_of_mem _ hq
    · rw [updateA, if_neg ha] at hp
      rcases List.mem_cons.mp hp with hq | hq
      · left; rw [hq]; exact List.mem_cons_self _ _
      · rcases ih hq with hq2 | hq2
        · left; exact List.mem_cons_of_mem _ hq2
        · right; exact hq2

theorem IdOk_setNode {t : Tree} (h : IdOk t) (n : Node) : IdOk (t.setNode n) := by
  intro p hp
  rcases mem_updateA hp with hq | hq
  · exact h p hq
  · subst hq; rfl

instance (t : Tree) : Decidable (IdOk t) := by
  unfold IdOk
  infer_instance

theorem IdOk_getChild {t : Tree} (h : IdOk t) {node : Node} {key : String} {c : Node}
    (hc : t.getChild node key = some c) : t.node c.id = some c := by
  have := node_id_of_IdOk h hc
  rw [this]
  exact hc

/-- Per-entry `childrenKeys` preservation between two trees. -/
def keysPres (t t' : Tree) : Prop :=
  ∀ id, (t'.node id).map Node.childrenKeys = (t.node id).map Node.childrenKeys

theorem keysPres_refl (t : Tree) : keysPres t t := fun _ => rfl

theorem keysPres_trans {t1 t2 t3 : Tree} (h12 : keysPres t1 t2) (h23 : keysPres t2 t3) :
    keysPres t1 t3 := fun id => (h23 id).trans (h12 id)

theorem keysPres_setNodeAt {t : Tree} {n : Node} (nid : List String) (hid : n.id = nid)
    (h : ∀ e, t.node nid = some e → e.childrenKeys = n.childrenKeys) :
    keysPres t (t.setNode n) := by
  subst hid
  intro id
  by_cases hid2 : id = n.id
  · subst hid2
    rw [setNode_node, if_pos rfl]
    cases he : t.node n.id with
    | none => simp
    | some e => simp [h e he]
  · rw [setNode_node_ne _ _ _ hid2]

theorem stringifyChildren_keysPres
    {recur : Tree → Node → Nat → Int → Int → String × Tree}
    (hrec : ∀ t n lvl o b, IdOk t → t.node n.id = some n →
      keysPres t (recur t n lvl o b).2 ∧ IdOk (recur t n lvl o b).2)
    (node : Node) (isObject isFormat : Bool) (genTabs : Nat → String)
    (indentLevel : Nat) (offset : Int) :
    ∀ (keys : List String) (acc : String) (t : Tree), IdOk t →
      keysPres t (stringifyChildren recur node isObject isFormat genTabs indentLevel offset
        keys acc t).2 ∧
      IdOk (stringifyChildren recur node isObject isFormat genTabs indentLevel offset
        keys acc t).2 := by
  intro keys
  induction keys with
  | nil => intro acc t hok; exact ⟨keysPres_refl t, hok⟩
  | cons key rest ih =>
    intro acc t hok
    rw [stringifyChildren]
    cases hc : t.getChild node key with
    | none =>
      simp only [hc]
      exact ih _ _ hok
    | some child =>
      simp only [hc]
      have hcid := IdOk_getChild hok hc
      obtain ⟨hk1, ho1⟩ := hrec t child _ _ _ hok hcid
      obtain ⟨hk2, ho2⟩ := ih _ _ ho1
      exact ⟨keysPres_trans hk1 hk2, ho2⟩

theorem stringifyNode_keysPres (opts : StringifyOptions) :
    ∀ (fuel : Nat) (t : Tree) (node : Node) (lvl : Nat) (off b : Int),
      IdOk t → t.node node.id = some node →
      keysPres t (stringifyNode opts fuel t node lvl off b).2 ∧
      IdOk (stringifyNode opts fuel t node lvl off b).2 := by
  intro fuel
  induction fuel with
  | zero => intro t node lvl off b hok _; exact ⟨keysPres_refl t, hok⟩
  | succ fuel ih =>
    intro t node lvl off b hok hn
    rw [stringifyNode]
    by_cases hit : isIterable node = true
    · by_cases hp : opts.pure = true
      · simp [hit, hp]
        exact stringifyChildren_keysPres (fun t2 n l o b2 => ih t2 n l o b2) _ _ _ _ _ _ _ _ _ hok
      · simp only [Bool.not_eq_true] at hp
        simp [hit, hp]
        have h1 : keysPres t (t.setNode { node with boundOffset := b, offset := off }) := by
          refine keysPres_setNodeAt node.id rfl ?_
          intro e he
          rw [hn] at he
          injection he with he2
          rw [← he2]
        have hok1 : IdOk (t.setNode { node with boundOffset := b, offset := off }) :=
          IdOk_setNode hok _
        obtain ⟨h2, hok2⟩ :=
          stringifyChildren_keysPres (fun t2 n l o b2 => ih t2 n l o b2) _ _ _ _ _ _ _ _
            (t.setNode { node with boundOffset := b, offset := off }) hok1
        refine ⟨keysPres_trans (keysPres_trans h1 h2)
          (keysPres_setNodeAt node.id (by simp [computeAndSetBoundLength]) ?_),
          IdOk_setNode hok2 _⟩
        intro e he
        have hkeys := (keysPres_trans h1 h2) node.id
        rw [hn, he] at hkeys
        show e.childrenKeys = node.childrenKeys
        simpa using hkeys
    · simp only [Bool.not_eq_true] at hit
      by_cases hp : opts.pure = true
      · simp [hit, hp]
        exact ⟨keysPres_refl t, hok⟩
      · simp only [Bool.not_eq_true] at hp
        simp [hit, hp]
        refine ⟨keysPres_setNodeAt node.id (by simp [computeAndSetBoundLength]) ?_,
          IdOk_setNode hok _⟩
        intro e he
        rw [hn] at he
        injection he with he2
        show e.childrenKeys = node.childrenKeys
        rw [← he2]

/-- A freshly parsed `{"b":1,"a":2}` tree (children in source order `b, a`). -/
def exSortRoot : Node := ⟨rootMarker, NodeType.object, none, ["b", "a"], 0, 0, 0, 0⟩

def exSortB : Node := ⟨["b"], NodeType.number, some "1", [], 0, 0, 0, 0⟩

def exSortA2 : Node := ⟨["a"], NodeType.number, some "2", [], 0, 0, 0, 0⟩

def exSortTree : Tree :=
  ⟨[(rootMarker, exSortRoot), (["b"], exSortB), (["a"], exSortA2)], "", [], none, []⟩

def exAscOpts : StringifyOptions := ⟨false, some SortDir.asc, 0, false⟩

/-- C5: stringifying with a `sort` option reorders only the emitted key
order; the stored `childrenKeys` of every node is unchanged (shown for
every option value, in particular `asc`/`desc`), and on the concrete
source-ordered `{"b":1,"a":2}` tree the `asc` emission is sorted while the
root's stored key order stays `["b", "a"]`. -/
theorem C5_sort_emission_only :
    (∀ (opts : StringifyOptions) (fuel : Nat) (t : Tree) (node : Node) (lvl : Nat) (off b : Int),
      IdOk t → t.node node.id = some node →
      ∀ id, ((stringifyNode opts fuel t node lvl off b).2.node id).map Node.childrenKeys =
            (t.node id).map Node.childrenKeys) ∧
    (exSortTree.stringify exAscOpts).1 = "\x7b\"a\":2,\"b\":1\x7d" ∧
    ((exSortTree.stringify exAscOpts).2.node rootMarker).map Node.childrenKeys =
      some ["b", "a"] := by
  refine ⟨?_, by decide, by decide⟩
  intro opts fuel t node lvl off b hok hn
  exact (stringifyNode_keysPres opts fuel t node lvl off b hok hn).1

/-- Witness for C5: the universal part applied to the concrete sort tree. -/
theorem C5_witness :
    ((stringifyNode exAscOpts 4 exSortTree exSortRoot 0 0 0).2.node ["b"]).map Node.childrenKeys =
      (exSortTree.node ["b"]).map Node.childrenKeys :=
  C5_sort_emission_only.1 exAscOpts 4 exSortTree exSortRoot 0 0 0 (by decide) (by decide) ["b"]

/-! ### Claim C4 -/

theorem mem_dedupKeep (l : List String) :
    ∀ (seen : List String) (x : String), x ∈ dedupKeep seen l ↔ (x ∈ l ∧ x ∉ seen) := by
  induction l with
  | nil => intro seen x; simp [dedupKeep]
  | cons y ys ih =>
    intro seen x
    by_cases hy : y ∈ seen
    · rw [dedupKeep, if_pos hy, ih]
      constructor
      · rintro ⟨hx, hs⟩
        exact ⟨List.mem_cons_of_mem _ hx, hs⟩
      · rintro ⟨hx, hs⟩
        rcases List.mem_cons.mp hx with h | h
        · exact absurd (h ▸ hy) hs
        · exact ⟨h, hs⟩
    · rw [dedupKeep, if_neg hy]
      constructor
      · intro hx
        rcases List.mem_cons.mp hx with h | h
        · subst h
          exact ⟨List.mem_cons_self _ _, hy⟩
        · obtain ⟨h1, h2⟩ := (ih _ x).mp h
          refine ⟨List.mem_cons_of_mem _ h1, ?_⟩
          intro hs
          exact h2 (List.mem_cons_of_mem _ hs)
      · rintro ⟨hx, hs⟩
        rcases List.mem_cons.mp hx with h | h
        · subst h
          exact List.mem_cons_self _ _
        · by_cases hxy : x = y
          · subst hxy
            exact List.mem_cons_self _ _
          · refine List.mem_cons_of_mem _ ((ih _ x).mpr ⟨h, ?_⟩)
            intro h2
            rcases List.mem_cons.mp h2 with h3 | h3
            · exact hxy h3
            · exact hs h3

theorem mem_unionL (a b : List String) (x : String) :
    x ∈ unionL a b ↔ x ∈ a ∨ x ∈ b := by
  rw [unionL, mem_dedupKeep]
  simp

theorem all_false_of_mem {α : Type} {l : List α} {p : α → Bool} {x : α}
    (hx : x ∈ l) (hp : p x = false) : l.all p = false := by
  cases hall : l.all p with
  | false => rfl
  | true =>
    have h := List.all_eq_true.mp hall x hx
    rw [hp] at h
    simp at h

/-- Nodes for equality examples: `{"a":1,"b":2}`, `{"b":2,"a":1}`, `{"a":1}`. -/
def exEqRootAB : Node := ⟨rootMarker, NodeType.object, none, ["a", "b"], 0, 0, 0, 0⟩

def exEqA1 : Node := ⟨["a"], NodeType.number, some "1", [], 0, 0, 0, 0⟩

def exEqB2 : Node := ⟨["b"], NodeType.number, some "2", [], 0, 0, 0, 0⟩

def exTreeAB : Tree := ⟨[(rootMarker, exEqRootAB), (["a"], exEqA1), (["b"], exEqB2)], "", [], none, []⟩

def exEqRootBA : Node := ⟨rootMarker, NodeType.object, none, ["b", "a"], 0, 0, 0, 0⟩

def exTreeBA : Tree := ⟨[(rootMarker, exEqRootBA), (["b"], exEqB2), (["a"], exEqA1)], "", [], none, []⟩

def exEqRootA : Node := ⟨rootMarker, NodeType.object, none, ["a"], 0, 0, 0, 0⟩

def exTreeA1 : Tree := ⟨[(rootMarker, exEqRootA), (["a"], exEqA1)], "", [], none, []⟩

/-- C4: `isEquals` is false on differing types, false when a child key of
either side is absent from the other (keys taken from the union of both
sides), key-order-insensitive on the concrete examples, and on two
corresponding leaves it is true iff their raw token values are equal. -/
theorem C4_isEquals_structure :
    (∀ (t1 t2 : Tree) (r1 r2 : Node), t1.root = some r1 → t2.root = some r2 →
      r1.type ≠ r2.type → isEquals t1 t2 = false) ∧
    (∀ (t1 t2 : Tree) (r1 r2 : Node) (k : String), t1.root = some r1 → t2.root = some r2 →
      k ∈ getChildrenKeys r1 → t2.getChild r2 k = none → isEquals t1 t2 = false) ∧
    (∀ (t1 t2 : Tree) (r1 r2 : Node) (k : String), t1.root = some r1 → t2.root = some r2 →
      k ∈ getChildrenKeys r2 → t1.getChild r1 k = none → isEquals t1 t2 = false) ∧
    (isEquals exTreeAB exTreeBA = true) ∧
    (isEquals exTreeA1 exTreeAB = false) ∧
    (∀ (t1 t2 : Tree) (r1 r2 : Node), t1.root = some r1 → t2.root = some r2 →
      r1.type = r2.type → getChildrenKeys r1 = [] → getChildrenKeys r2 = [] →
      (isEquals t1 t2 = true ↔ getRawValue r1 = getRawValue r2)) := by
  refine ⟨?_, ?_, ?_, by decide, by decide, ?_⟩
  · intro t1 t2 r1 r2 h1 h2 htype
    rw [isEquals, h1, h2]
    simp only [doIsEquals]
    rw [if_pos htype]
  · intro t1 t2 r1 r2 k h1 h2 hk hc2
    rw [isEquals, h1, h2]
    simp only [doIsEquals]
    by_cases htype : r1.type ≠ r2.type
    · rw [if_pos htype]
    · rw [if_neg htype]
      have hmem : k ∈ unionL (getChildrenKeys r1) (getChildrenKeys r2) :=
        (mem_unionL _ _ k).mpr (Or.inl hk)
      have hne : (unionL (getChildrenKeys r1) (getChildrenKeys r2)).isEmpty = false := by
        cases hl : unionL (getChildrenKeys r1) (getChildrenKeys r2) with
        | nil => rw [hl] at hmem; simp at hmem
        | cons c cl => simp [List.isEmpty]
      rw [hne]
      simp only [Bool.false_eq_true, if_false]
      refine all_false_of_mem hmem ?_
      cases hc1 : t1.getChild r1 k <;> simp [hc1, hc2]
  · intro t1 t2 r1 r2 k h1 h2 hk hc1
    rw [isEquals, h1, h2]
    simp only [doIsEquals]
    by_cases htype : r1.type ≠ r2.type
    · rw [if_pos htype]
    · rw [if_neg htype]
      have hmem : k ∈ unionL (getChildrenKeys r1) (getChildrenKeys r2) :=
        (mem_unionL _ _ k).mpr (Or.inr hk)
      have hne : (unionL (getChildrenKeys r1) (getChildrenKeys r2)).isEmpty = false := by
        cases hl : unionL (getChildrenKeys r1) (getChildrenKeys r2) with
        | nil => rw [hl] at hmem; simp at hmem
        | cons c cl => simp [List.isEmpty]
      rw [hne]
      simp only [Bool.false_eq_true, if_false]
      refine all_false_of_mem hmem ?_
      simp [hc1]
  · intro t1 t2 r1 r2 h1 h2 htype hk1 hk2
    rw [isEquals, h1, h2]
    simp only [doIsEquals]
    rw [if_neg (by simp [htype]), hk1, hk2]
    have hu : unionL [] [] = [] := rfl
    rw [hu]
    simp [List.isEmpty]

/-- Witness for C4: a key present on one side and absent on the other. -/
theorem C4_witness : isEquals exTreeAB exTreeA1 = false :=
  C4_isEquals_structure.2.1 exTreeAB exTreeA1 exEqRootAB exEqRootA "b"
    (by decide) (by decide) (by decide) (by decide)

/-! ### Claim C7 -/

/-- Nodes of the tree for `{"a":{"b":{"c":"d"}}}`. -/
def exNestRoot : Node := ⟨rootMarker, NodeType.object, none, ["a"], 0, 0, 0, 0⟩

def exNestA : Node := ⟨["a"], NodeType.object, none, ["b"], 0, 0, 0, 0⟩

def exNestB : Node := ⟨["a", "b"], NodeType.object, none, ["c"], 0, 0, 0, 0⟩

def exNestC : Node := ⟨["a", "b", "c"], NodeType.string, some "\"d\"", [], 0, 0, 0, 0⟩

def exNestTree : Tree :=
  ⟨[(rootMarker, exNestRoot), (["a"], exNestA), (["a", "b"], exNestB), (["a", "b", "c"], exNestC)],
   "", [], none, []⟩

theorem walkPath_mem (t : Tree) :
    ∀ (segs : List Seg) (node n : Node), walkPath t node segs = some n →
      n = node ∨ ∃ id, t.node id = some n := by
  intro segs
  induction segs with
  | nil =>
    intro node n h
    rw [walkPath] at h
    injection h with h2
    exact Or.inl h2.symm
  | cons s rest ih =>
    intro node n h
    cases s with
    | key k =>
      rw [walkPath] at h
      by_cases ht : node.type = NodeType.object
      · rw [if_pos ht] at h
        cases hc : t.getChild node k with
        | none => rw [hc] at h; exact absurd h (by simp)
        | some c =>
          rw [hc] at h
          rcases ih c n h with h2 | h2
          · exact Or.inr ⟨getChildId node k, h2 ▸ hc⟩
          · exact Or.inr h2
      · rw [if_neg ht] at h
        exact absurd h (by simp)
    | idx i =>
      rw [walkPath] at h
      by_cases ht : node.type = NodeType.array
      · rw [if_pos ht] at h
        cases hc : t.getChild node (toString i) with
        | none => rw [hc] at h; exact absurd h (by simp)
        | some c =>
          rw [hc] at h
          rcases ih c n h with h2 | h2
          · exact Or.inr ⟨getChildId node (toString i), h2 ▸ hc⟩
          · exact Or.inr h2
      · rw [if_neg ht] at h
        exact absurd h (by simp)

/-- C7: `findNodeByPath` fails closed — a key segment on a non-object, an
index segment on a non-array, and a missing child each give no result (so a
path continuing past a leaf gives no result), it never creates nodes (every
returned node is already in the map), and the concrete examples behave as
the spec says. -/
theorem C7_findNodeByPath_fails_closed :
    (∀ (t : Tree) (path : String) (n : Node), t.findNodeByPath path = some n →
      ∃ id, t.node id = some n) ∧
    (∀ (t : Tree) (node : Node) (k : String) (rest : List Seg),
      node.type ≠ NodeType.object → walkPath t node (Seg.key k :: rest) = none) ∧
    (∀ (t : Tree) (node : Node) (i : Nat) (rest : List Seg),
      node.type ≠ NodeType.array → walkPath t node (Seg.idx i :: rest) = none) ∧
    (∀ (t : Tree) (node : Node) (k : String) (rest : List Seg),
      node.type = NodeType.object → t.getChild node k = none →
      walkPath t node (Seg.key k :: rest) = none) ∧
    (∀ (t : Tree) (node : Node) (i : Nat) (rest : List Seg),
      node.type = NodeType.array → t.getChild node (toString i) = none →
      walkPath t node (Seg.idx i :: rest) = none) ∧
    (exNestTree.findNodeByPath "a.b.c" = some exNestC ∧
     exNestTree.findNodeByPath "a.b.c.d" = none ∧
     exNestTree.findNodeByPath "nonexistent" = none) := by
  refine ⟨?_, ?_, ?_, ?_, ?_, by decide, by decide, by decide⟩
  · intro t path n h
    rw [Tree.findNodeByPath] at h
    cases hr : t.root with
    | none => rw [hr] at h; exact absurd h (by simp)
    | some r =>
      rw [hr] at h
      cases hp : parsePath path with
      | none => rw [hp] at h; exact absurd h (by simp)
      | some segs =>
        rw [hp] at h
        rcases walkPath_mem t segs r n h with h2 | h2
        · exact ⟨rootMarker, h2 ▸ hr⟩
        · exact h2
  · intro t node k rest ht
    rw [walkPath, if_neg ht]
  · intro t node i rest ht
    rw [walkPath, if_neg ht]
  · intro t node k rest ht hc
    rw [walkPath, if_pos ht, hc]
  · intro t node i rest ht hc
    rw [walkPath, if_pos ht, hc]

/-- Witness for C7: a key segment applied to an array node yields nothing. -/
theorem C7_witness :
    walkPath exTree ⟨["arr"], NodeType.array, none, [], 0, 0, 0, 0⟩ [Seg.key "x"] = none :=
  C7_findNodeByPath_fails_closed.2.1 exTree ⟨["arr"], NodeType.array, none, [], 0, 0, 0, 0⟩
    "x" [] (by decide)

/-! ### Claim C2 -/

theorem node_mk_updateA (m : List ((List String) × Node)) (s : String) (er : List String)
    (ver : Option Int) (ni : List (List String)) (k : List String) (v : Node)
    (id : List String) :
    (Tree.mk (updateA m k v) s er ver ni).node id =
      if id = k then (lookupA m k).map (fun _ => v) else lookupA m id := by
  show lookupA (updateA m k v) id = _
  rw [lookupA_updateA]

/-- Every entry of the map satisfies the offset invariant. -/
def AllInv (t : Tree) : Prop := ∀ id n, t.node id = some n → offInv n

theorem AllInv_setNode {t : Tree} {n : Node} (h : AllInv t) (hn : offInv n) :
    AllInv (t.setNode n) := by
  intro id m hm
  rw [setNode_node] at hm
  by_cases hid : id = n.id
  · rw [if_pos hid] at hm
    obtain ⟨e, _, hme⟩ := Option.map_eq_some'.mp hm
    exact hme ▸ hn
  · rw [if_neg hid] at hm
    exact h id m hm

theorem AllInv_of_touchInv {t t' : Tree} (h : AllInv t) (ht : touchInv t t') : AllInv t' := by
  intro id n hn
  rcases ht id with he | ⟨n2, hn2, hi⟩
  · exact h id n (he ▸ hn)
  · rw [hn2] at hn
    injection hn with h3
    exact h3 ▸ hi

theorem fixChildren_allInv
    {recur : Tree → Node → Int → List Edit → Tree × Int × List Edit}
    (hrec : ∀ t n a e, AllInv t → offInv n → AllInv (recur t n a e).1) (node : Node) :
    ∀ (keys : List String) (t : Tree) (acc : Int) (edits : List Edit), AllInv t →
      AllInv (fixChildren recur node keys t acc edits).1 := by
  intro keys
  induction keys with
  | nil => intro t acc edits h; exact h
  | cons key rest ih =>
    intro t acc edits h
    rw [fixChildren]
    cases hc : t.getChild node key with
    | none =>
      simp only [hc]
      exact ih _ _ _ h
    | some c =>
      simp only [hc]
      exact ih _ _ _ (hrec t c acc edits h (h _ c hc))

theorem fixOffset_allInv (opts : StringifyOptions) :
    ∀ (fuel : Nat) (t : Tree) (node : Node) (acc : Int) (edits : List Edit),
      AllInv t → offInv node → AllInv (fixOffset opts fuel t node acc edits).1 := by
  intro fuel
  induction fuel with
  | zero => intro t node acc edits h _; exact h
  | succ fuel ih =>
    intro t node acc edits h hinv
    rw [fixOffset]
    by_cases hm : node.id ∈ t.nestIds
    · simp [hm]
      by_cases hp : opts.pure = true
      · rw [stringifyNode_pure opts hp]
        exact h
      · simp only [Bool.not_eq_true] at hp
        refine AllInv_of_touchInv h (stringifyNode_touchInv opts hp _ _ _ _ _ _ ?_)
        have := hinv.1
        omega
    · simp [hm]
      have hshift : offInv { node with offset := node.offset + acc, boundOffset := node.boundOffset + acc } := by
        obtain ⟨h1, h2⟩ := hinv
        constructor
        · show node.boundOffset + acc ≤ node.offset + acc
          omega
        · show node.boundOffset + acc + node.boundLength = node.offset + acc + node.length
          omega
      split
      · next n2 hn2 =>
        have hi2 : offInv n2 :=
          fixChildren_allInv (fun t2 n a e hA ho => ih t2 n a e hA ho) _ _ _ _ _
            (AllInv_setNode h hshift) _ n2 hn2
        refine AllInv_setNode (fixChildren_allInv (fun t2 n a e hA ho => ih t2 n a e hA ho)
          _ _ _ _ _ (AllInv_setNode h hshift)) ?_
        obtain ⟨h1, h2⟩ := hi2
        constructor
        · exact h1
        · show n2.boundOffset + (n2.boundLength + _) = n2.offset + (n2.length + _)
          omega
      · next hn2 =>
        exact fixChildren_allInv (fun t2 n a e hA ho => ih t2 n a e hA ho) _ _ _ _ _
          (AllInv_setNode h hshift)

/-- C2: after a non-pure `stringifyNode` pass every entry is untouched or
satisfies the offset invariant and the stringified node itself satisfies
it; after `stringify` likewise; and `stringifyNestNodes` preserves the
invariant on all entries. -/
theorem C2_offset_invariant :
    (∀ (opts : StringifyOptions) (fuel : Nat) (t : Tree) (node : Node) (lvl : Nat) (off b : Int),
      opts.pure = false → b ≤ off →
      ∀ id, (stringifyNode opts fuel t node lvl off b).2.node id = t.node id ∨
        ∃ n', (stringifyNode opts fuel t node lvl off b).2.node id = some n' ∧ offInv n') ∧
    (∀ (opts : StringifyOptions) (fuel : Nat) (t : Tree) (node : Node) (lvl : Nat) (off b : Int),
      opts.pure = false → b ≤ off → (t.node node.id).isSome →
      ∃ n', (stringifyNode opts (fuel + 1) t node lvl off b).2.node node.id = some n' ∧
        offInv n') ∧
    (∀ (opts : StringifyOptions) (t : Tree) (r : Node),
      opts.pure = false → t.root = some r → r.id = rootMarker →
      ∀ id, (t.stringify opts).2.node id = t.node id ∨
        ∃ n', (t.stringify opts).2.node id = some n' ∧ offInv n') ∧
    (∀ (opts : StringifyOptions) (t : Tree), AllInv t →
      ∀ id n', (t.stringifyNestNodes opts).node id = some n' → offInv n') := by
  refine ⟨?_, ?_, ?_, ?_⟩
  · intro opts fuel t node lvl off b hp hb id
    exact stringifyNode_touchInv opts hp fuel t node lvl off b hb id
  · intro opts fuel t node lvl off b hp hb hs
    refine ⟨_, stringifyNode_entry opts hp fuel t node lvl off b hs, ?_⟩
    exact offInv_computed _ (by simpa using hb)
  · intro opts t r hp hr hid id
    rw [Tree.stringify, hr]
    have hs : (t.node r.id).isSome := by rw [hid]; simp [show t.node rootMarker = some r from hr]
    have hent := stringifyNode_entry opts hp t.nodeMap.length t r 0 0 0 hs
    rw [hid] at hent
    simp only [node_with_text, hent]
    rw [node_mk_updateA]
    by_cases hid2 : id = rootMarker
    · rw [if_pos hid2]
      right
      have hent2 : lookupA (stringifyNode opts (t.nodeMap.length + 1) t r 0 0 0).2.nodeMap
          rootMarker = some _ := hent
      rw [hent2]
      refine ⟨_, rfl, ?_⟩
      constructor <;> simp [computeAndSetBoundLength]
    · rw [if_neg hid2]
      exact stringifyNode_touchInv opts hp (t.nodeMap.length + 1) t r 0 0 0 le_rfl id
  · intro opts t hAll id n' hn'
    rw [Tree.stringifyNestNodes] at hn'
    cases hr : t.root with
    | none =>
      rw [hr] at hn'
      exact hAll id n' hn'
    | some r =>
      rw [hr] at hn'
      have h2 := fixOffset_allInv opts (t.nodeMap.length + 1) t r 0 [] hAll
        (hAll rootMarker r hr)
      exact h2 id n' hn'

/-- Witness for C2: the non-pure stringify of the fresh `{"a":1}` tree
stores an invariant-satisfying root entry. -/
theorem C2_witness :
    ∃ n', (stringifyNode exOpts 3 exC6Tree exC6Root 0 0 0).2.node rootMarker = some n' ∧
      offInv n' :=
  (C2_offset_invariant.2.1 exOpts 2 exC6Tree exC6Root 0 0 0 rfl le_rfl (by decide))

/-! ### Claim C1: well-formedness, reachability and the budget measure -/

/-- Right end of a node's bound interval. -/
def bEnd (n : Node) : Int := n.boundOffset + n.boundLength

/-- `Desc t a b`: `b` lies in the subtree of `a`, following `childrenKeys`
and `getChild`. -/
inductive Desc (t : Tree) : Node → Node → Prop where
  | refl (n : Node) : Desc t n n
  | child {a b c : Node} (k : String) (hk : k ∈ getChildrenKeys a)
      (hc : t.getChild a k = some b) (h : Desc t b c) : Desc t a c

/-- Local well-formedness of a map entry: its id is its key, children are
present, child bounds nest inside the parent's bound, bound lengths are
nonnegative, and sibling bounds are disjoint and increasing in source
order (spec §3 and §4.4). -/
structure WFAt (t : Tree) (id : List String) (n : Node) : Prop where
  idOk : n.id = id
  present : ∀ k ∈ getChildrenKeys n, (t.node (id ++ [k])).isSome
  nested : ∀ k c, k ∈ getChildrenKeys n → t.node (id ++ [k]) = some c →
    n.boundOffset ≤ c.boundOffset ∧ bEnd c ≤ bEnd n
  blNonneg : 0 ≤ n.boundLength
  ordered : (getChildrenKeys n).Pairwise (fun k1 k2 => ∀ c1 c2,
    t.node (id ++ [k1]) = some c1 → t.node (id ++ [k2]) = some c2 → bEnd c1 ≤ c2.boundOffset)

/-- Global well-formedness: every entry is locally well formed. -/
def Tree.WF (t : Tree) : Prop := ∀ id n, t.node id = some n → WFAt t id n

/-- Number of map entries whose key is at least as long as `id`: a strictly
decreasing measure along child edges, used to discharge the fuel. -/
def budgetAux (l : List ((List String) × Node)) (id : List String) : Nat :=
  (l.filter (fun p => decide (id.length ≤ p.1.length))).length

def budgetId (t : Tree) (id : List String) : Nat := budgetAux t.nodeMap id

theorem budget_le_length (t : Tree) (id : List String) :
    budgetId t id ≤ t.nodeMap.length :=
  List.length_filter_le _ _

theorem filter_mono_length {α : Type} {l : List α} {p q : α → Bool}
    (himp : ∀ x, q x = true → p x = true) :
    (l.filter q).length ≤ (l.filter p).length := by
  induction l with
  | nil => simp
  | cons x xs ih =>
    rw [List.filter_cons, List.filter_cons]
    cases hq : q x with
    | true =>
      rw [himp x hq]
      simpa using ih
    | false =>
      cases hp : p x with
      | true =>
        simp only [if_pos rfl, Bool.false_eq_true, if_false]
        exact le_trans ih (by simp)
      | false =>
        simpa using ih

theorem filter_lt_of_mem {α : Type} {l : List α} {p q : α → Bool}
    (himp : ∀ x, q x = true → p x = true) {a : α}
    (ha : a ∈ l) (hpa : p a = true) (hqa : q a = false) :
    (l.filter q).length < (l.filter p).length := by
  induction l with
  | nil => simp at ha
  | cons x xs ih =>
    rw [List.filter_cons, List.filter_cons]
    rcases List.mem_cons.mp ha with h | h
    · subst h
      rw [hpa, hqa]
      simpa using Nat.lt_succ_of_le (filter_mono_length himp)
    · cases hq : q x with
      | true =>
        rw [himp x hq]
        simpa using ih h
      | false =>
        cases hp : p x with
        | true =>
          simp only [if_pos rfl, Bool.false_eq_true, if_false]
          exact Nat.lt_succ_of_lt (ih h)
        | false =>
          simpa using ih h

theorem budget_child_lt {t : Tree} {id : List String} {n : Node} (h : t.node id = some n)
    (k : String) : budgetId t (id ++ [k]) < budgetId t id := by
  refine filter_lt_of_mem ?_ (lookupA_mem h) ?_ ?_
  · intro p hp
    simp only [decide_eq_true_eq] at hp ⊢
    rw [List.length_append] at hp
    omega
  · simp
  · simp only [decide_eq_false_iff_not, List.length_append, List.length_singleton]
    omega

theorem Desc_entry {t : Tree} (hwf : t.WF) {a b : Node} (hd : Desc t a b) :
    t.node a.id = some a → t.node b.id = some b := by
  induction hd with
  | refl n => exact id
  | child k hk hc h ih =>
    intro ha
    refine ih ?_
    rename_i x y _
    have hcc : t.node (x.id ++ [k]) = some y := hc
    have hid := (hwf _ _ hcc).idOk
    rw [hid]
    exact hcc

theorem Desc_bounds {t : Tree} (hwf : t.WF) {a b : Node} (hd : Desc t a b) :
    t.node a.id = some a → a.boundOffset ≤ b.boundOffset ∧ bEnd b ≤ bEnd a := by
  induction hd with
  | refl n => intro _; exact ⟨le_refl _, le_refl _⟩
  | child k hk hc h ih =>
    intro ha
    rename_i x y _
    have hcc : t.node (x.id ++ [k]) = some y := hc
    have hnested := (hwf _ _ ha).nested k y hk (by rw [← (hwf _ _ ha).idOk]; exact hcc)
    have hyent : t.node y.id = some y := by
      rw [(hwf _ _ hcc).idOk]
      exact hcc
    have ihb := ih hyent
    exact ⟨le_trans hnested.1 ihb.1, le_trans ihb.2 hnested.2⟩

theorem inBound_true_iff {off : Int} {c : Node} :
    inBound off c = true ↔ (c.boundOffset < off ∧ off ≤ c.boundOffset + c.boundLength) := by
  simp [inBound]

theorem inBound_eq_false_left {off : Int} {c : Node} (h : ¬ c.boundOffset < off) :
    inBound off c = false := by
  rw [inBound, decide_eq_false h, Bool.false_and]

theorem inBound_eq_false_right {off : Int} {c : Node}
    (h : ¬ off ≤ c.boundOffset + c.boundLength) : inBound off c = false := by
  rw [inBound, decide_eq_false h, Bool.and_false]

/-- Correctness of the `while (left <= right)` binary search: with children
present, bound lengths nonnegative and sibling bounds sorted, it finds a
child whose bound interval contains the offset exactly when one exists
(`keys.length + 1` fuel always suffices). -/
theorem searchChild_spec (t : Tree) (node : Node) (off : Int) (keys : List String)
    (hpres : ∀ k ∈ keys, (t.getChild node k).isSome)
    (hbl : ∀ k c, k ∈ keys → t.getChild node k = some c → 0 ≤ c.boundLength)
    (hsorted : keys.Pairwise (fun k1 k2 => ∀ c1 c2, t.getChild node k1 = some c1 →
      t.getChild node k2 = some c2 → bEnd c1 ≤ c2.boundOffset)) :
    ∀ (fuel : Nat) (left right : Int), 0 ≤ left → right ≤ (keys.length : Int) - 1 →
      (right + 1 - left).toNat < fuel →
      (∀ (i : Fin keys.length), ((i.1 : Int) < left ∨ right < (i.1 : Int)) →
        ∀ c, t.getChild node (keys.get i) = some c → inBound off c = false) →
      match searchChild t node off keys fuel left right with
      | SearchOutcome.found c => inBound off c = true ∧ ∃ k ∈ keys, t.getChild node k = some c
      | SearchOutcome.stop =>
          ∀ k ∈ keys, ∀ c, t.getChild node k = some c → inBound off c = false
      | SearchOutcome.missing => False := by
  have hpair := List.pairwise_iff_get.mp hsorted
  intro fuel
  induction fuel with
  | zero =>
    intro left right hl hr hf hout
    omega
  | succ fuel ih =>
    intro left right hl hr hf hout
    rw [searchChild]
    by_cases hlr : left ≤ right
    · rw [if_pos hlr]
      have hml : left ≤ (left + right) / 2 := by omega
      have hmr : (left + right) / 2 ≤ right := by omega
      have hmn : ((left + right) / 2).toNat < keys.length := by omega
      have hcast : ((((left + right) / 2).toNat : Int)) = (left + right) / 2 := by omega
      simp only []
      rw [List.get?_eq_get hmn]
      simp only
      have hkmem : keys.get ⟨((left + right) / 2).toNat, hmn⟩ ∈ keys := keys.get_mem _ hmn
      cases hc : t.getChild node (keys.get ⟨((left + right) / 2).toNat, hmn⟩) with
      | none =>
        have hp := hpres _ hkmem
        rw [hc] at hp
        simp at hp
      | some child =>
        simp only
        by_cases hib : inBound off child = true
        · rw [if_pos hib]
          exact ⟨hib, _, hkmem, hc⟩
        · rw [if_neg hib]
          have hibf : inBound off child = false := by
            revert hib
            cases inBound off child <;> simp
          by_cases hlt : child.boundOffset + child.boundLength < off
          · rw [if_pos hlt]
            refine ih ((left + right) / 2 + 1) right (by omega) hr (by omega) ?_
            intro i hcond c2 hc2
            rcases hcond with hcond | hcond
            · by_cases hcl : (i.1 : Int) < left
              · exact hout i (Or.inl hcl) c2 hc2
              · have hile : i.1 ≤ ((left + right) / 2).toNat := by omega
                rcases Nat.lt_or_eq_of_le hile with hilt | hieq
                · have hR := hpair i ⟨((left + right) / 2).toNat, hmn⟩ hilt
                  have hle := hR c2 child hc2 hc
                  have hbl2 := hbl _ child hkmem hc
                  refine inBound_eq_false_right ?_
                  rw [bEnd] at hle
                  omega
                · have hieq2 : i = ⟨((left + right) / 2).toNat, hmn⟩ := Fin.ext hieq
                  rw [hieq2, hc] at hc2
                  injection hc2 with hc3
                  rw [← hc3]
                  exact hibf
            · exact hout i (Or.inr hcond) c2 hc2
          · rw [if_neg hlt]
            have hoffbo : off ≤ child.boundOffset := by
              rcases Bool.and_eq_false_iff.mp (by rw [← inBound]; exact hibf) with h | h
              · have := of_decide_eq_false h
                omega
              · have := of_decide_eq_false h
                omega
            refine ih left ((left + right) / 2 - 1) hl (by omega) (by omega) ?_
            intro i hcond c2 hc2
            rcases hcond with hcond | hcond
            · exact hout i (Or.inl hcond) c2 hc2
            · by_cases hcr : right < (i.1 : Int)
              · exact hout i (Or.inr hcr) c2 hc2
              · have hige : ((left + right) / 2).toNat ≤ i.1 := by omega
                rcases Nat.lt_or_eq_of_le hige with hilt | hieq
                · have hR := hpair ⟨((left + right) / 2).toNat, hmn⟩ i hilt
                  have hle := hR child c2 hc hc2
                  have hbl2 := hbl _ child hkmem hc
                  refine inBound_eq_false_left ?_
                  rw [bEnd] at hle
                  omega
                · have hieq2 : i = ⟨((left + right) / 2).toNat, hmn⟩ := Fin.ext hieq.symm
                  rw [hieq2, hc] at hc2
                  injection hc2 with hc3
                  rw [← hc3]
                  exact hibf
    · rw [if_neg hlr]
      intro k hk c hc
      obtain ⟨i, hg⟩ := List.mem_iff_get.mp hk
      refine hout i (by omega) c ?_
      rw [hg]
      exact hc

/-- With sorted, nonnegative sibling bounds, at most one child's bound
interval contains a given offset. -/
theorem containing_child_unique (t : Tree) (node : Node) (off : Int) (keys : List String)
    (hsorted : keys.Pairwise (fun k1 k2 => ∀ c1 c2, t.getChild node k1 = some c1 →
      t.getChild node k2 = some c2 → bEnd c1 ≤ c2.boundOffset))
    {k1 k2 : String} {c1 c2 : Node} (h1 : k1 ∈ keys) (h2 : k2 ∈ keys)
    (hc1 : t.getChild node k1 = some c1) (hc2 : t.getChild node k2 = some c2)
    (hi1 : inBound off c1 = true) (hi2 : inBound off c2 = true) : c1 = c2 := by
  have hpair := List.pairwise_iff_get.mp hsorted
  obtain ⟨i1, hg1⟩ := List.mem_iff_get.mp h1
  obtain ⟨i2, hg2⟩ := List.mem_iff_get.mp h2
  have hb1 := inBound_true_iff.mp hi1
  have hb2 := inBound_true_iff.mp hi2
  rcases lt_trichotomy i1 i2 with hlt | heq | hgt
  · exfalso
    have hR := hpair i1 i2 hlt c1 c2 (by rw [hg1]; exact hc1) (by rw [hg2]; exact hc2)
    rw [bEnd] at hR
    omega
  · have hkk : k1 = k2 := by rw [← hg1, ← hg2, heq]
    rw [hkk, hc2] at hc1
    injection hc1 with h
    exact h.symm
  · exfalso
    have hR := hpair i2 i1 hgt c2 c1 (by rw [hg2]; exact hc2) (by rw [hg1]; exact hc1)
    rw [bEnd] at hR
    omega

/-- Full behavioral specification of `doFind` on well-formed trees: with
sufficient fuel it never crashes; it returns nothing exactly when the
starting node's bound excludes the offset, and otherwise the innermost
bound-containing node of the subtree. -/
theorem doFind_spec (t : Tree) (off : Int) (hwf : t.WF) :
    ∀ (fuel : Nat) (n : Node), t.node n.id = some n → budgetId t n.id < fuel →
      match doFind t off fuel n with
      | none => False
      | some none => inBound off n = false
      | some (some m) => inBound off n = true ∧ t.node m.id = some m ∧ Desc t n m ∧
          inBound off m = true ∧
          (∀ k c, k ∈ getChildrenKeys m → t.getChild m k = some c → inBound off c = false) ∧
          (∀ p, t.node p.id = some p → Desc t n p → inBound off p = true → Desc t p m) := by
  intro fuel
  induction fuel with
  | zero => intro n hn hb; omega
  | succ fuel ih =>
    intro n hn hb
    rw [doFind]
    by_cases hib : inBound off n = true
    · rw [if_pos hib]
      have hwa := hwf _ _ hn
      have hpres : ∀ k ∈ getChildrenKeys n, (t.getChild n k).isSome := hwa.present
      have hbl : ∀ k c, k ∈ getChildrenKeys n → t.getChild n k = some c → 0 ≤ c.boundLength :=
        fun k c hk hc => (hwf _ _ (show t.node (n.id ++ [k]) = some c from hc)).blNonneg
      have hsorted : (getChildrenKeys n).Pairwise (fun k1 k2 => ∀ c1 c2,
          t.getChild n k1 = some c1 → t.getChild n k2 = some c2 → bEnd c1 ≤ c2.boundOffset) :=
        hwa.ordered
      have hspec := searchChild_spec t n off (getChildrenKeys n) hpres hbl hsorted
        ((getChildrenKeys n).length + 1) 0 (((getChildrenKeys n).length : Int) - 1)
        (le_refl 0) (by omega) (by omega)
        (by intro i hcond c hc; exfalso; have h2 := i.2; omega)
      cases hsc : searchChild t n off (getChildrenKeys n) ((getChildrenKeys n).length + 1) 0
          (((getChildrenKeys n).length : Int) - 1) with
      | missing =>
        rw [hsc] at hspec
        exact (show False from hspec).elim
      | stop =>
        rw [hsc] at hspec
        have hspec2 : ∀ k ∈ getChildrenKeys n, ∀ c, t.getChild n k = some c →
            inBound off c = false := hspec
        simp only [hsc]
        refine ⟨hib, hn, Desc.refl n, hib, fun k c hk hc => hspec2 k hk c hc, ?_⟩
        intro p hp hdp hibp
        cases hdp with
        | refl => exact Desc.refl n
        | child k hk hc h =>
          exfalso
          rename_i c'
          have hc'ent : t.node c'.id = some c' := by
            rw [(hwf _ _ (show t.node (n.id ++ [k]) = some c' from hc)).idOk]
            exact hc
          have hbounds := Desc_bounds hwf h hc'ent
          have hibp' := inBound_true_iff.mp hibp
          have hfalse := hspec2 k hk c' hc
          have htrue : inBound off c' = true := by
            refine inBound_true_iff.mpr ⟨?_, ?_⟩
            · omega
            · rw [bEnd, bEnd] at hbounds
              omega
          rw [hfalse] at htrue
          simp at htrue
      | found child =>
        rw [hsc] at hspec
        have hspec2 : inBound off child = true ∧
            ∃ k ∈ getChildrenKeys n, t.getChild n k = some child := hspec
        obtain ⟨hibc, k, hk, hc⟩ := hspec2
        simp only [hsc]
        have hcid : child.id = n.id ++ [k] :=
          (hwf _ _ (show t.node (n.id ++ [k]) = some child from hc)).idOk
        have hcent : t.node child.id = some child := by
          rw [hcid]
          exact hc
        have hbud : budgetId t child.id < fuel := by
          have h2 := budget_child_lt hn k
          rw [hcid]
          omega
        have hrec := ih child hcent hbud
        cases hd : doFind t off fuel child with
        | none =>
          rw [hd] at hrec
          exact (show False from hrec).elim
        | some item =>
          cases item with
          | none =>
            rw [hd] at hrec
            have hrec2 : inBound off child = false := hrec
            rw [hrec2] at hibc
            exact absurd hibc (by simp)
          | some m =>
            rw [hd] at hrec
            have hrec2 : inBound off child = true ∧ t.node m.id = some m ∧ Desc t child m ∧
                inBound off m = true ∧
                (∀ k2 c, k2 ∈ getChildrenKeys m → t.getChild m k2 = some c →
                  inBound off c = false) ∧
                (∀ p, t.node p.id = some p → Desc t child p → inBound off p = true →
                  Desc t p m) := hrec
            obtain ⟨hibc2, hment, hdesc, hibm, hchild, hlast⟩ := hrec2
            refine ⟨hib, hment, Desc.child k hk hc hdesc, hibm, hchild, ?_⟩
            intro p hp hdp hibp
            cases hdp with
            | refl => exact Desc.child k hk hc hdesc
            | child k2 hk2 hc2 h2 =>
              rename_i c2
              have hc2ent : t.node c2.id = some c2 := by
                rw [(hwf _ _ (show t.node (n.id ++ [k2]) = some c2 from hc2)).idOk]
                exact hc2
              have hbp := Desc_bounds hwf h2 hc2ent
              have hibp' := inBound_true_iff.mp hibp
              have hibc2' : inBound off c2 = true := by
                refine inBound_true_iff.mpr ⟨?_, ?_⟩
                · omega
                · rw [bEnd, bEnd] at hbp
                  omega
              have huniq : c2 = child :=
                containing_child_unique t n off (getChildrenKeys n) hsorted hk2 hk hc2 hc
                  hibc2' hibc
              exact hlast p hp (huniq ▸ h2) hibp
    · rw [if_neg hib]
      simp only
      revert hib
      cases inBound off n <;> simp

/-- C1: on a valid, well-formed tree, `findNodeAtOffset` returns no result
exactly when the root's bound interval excludes the offset (under the
half-open-on-the-left convention), and otherwise the innermost node whose
bound interval contains it — the returned node contains the offset, none of
its children do, and it lies below every bound-containing node — tagged
`node` for graph nodes and otherwise `value` or `key` by the node's own
span. -/
theorem C1_findNodeAtOffset_correct :
    ∀ (t : Tree) (r : Node) (off : Int), t.WF → t.valid = true → t.root = some r →
    (t.findNodeAtOffset off = none ↔ inBound off r = false) ∧
    (∀ (n : Node) (kind : FindKind), t.findNodeAtOffset off = some (n, kind) →
      Desc t r n ∧ inBound off n = true ∧
      (∀ k c, k ∈ getChildrenKeys n → t.getChild n k = some c → inBound off c = false) ∧
      (∀ p, Desc t r p → inBound off p = true → Desc t p n) ∧
      (t.isGraphNode n = true → kind = FindKind.node) ∧
      (t.isGraphNode n = false →
        kind = if n.offset < off ∧ off ≤ n.offset + n.length then FindKind.value
               else FindKind.key)) := by
  intro t r off hwf hv hr
  have hroot : t.node rootMarker = some r := hr
  have hrent : t.node r.id = some r := by
    rw [(hwf _ _ hroot).idOk]
    exact hroot
  have hbud : budgetId t r.id < t.nodeMap.length + 1 := by
    have := budget_le_length t r.id
    omega
  have hspec := doFind_spec t off hwf (t.nodeMap.length + 1) r hrent hbud
  rw [Tree.findNodeAtOffset, if_pos hv, hr]
  simp only []
  cases hd : doFind t off (t.nodeMap.length + 1) r with
  | none =>
    rw [hd] at hspec
    exact (show False from hspec).elim
  | some item =>
    cases item with
    | none =>
      rw [hd] at hspec
      have hspec2 : inBound off r = false := hspec
      refine ⟨⟨fun _ => hspec2, fun _ => rfl⟩, ?_⟩
      intro n kind h
      exact absurd h (by simp)
    | some m =>
      rw [hd] at hspec
      have hspec2 : inBound off r = true ∧ t.node m.id = some m ∧ Desc t r m ∧
          inBound off m = true ∧
          (∀ k c, k ∈ getChildrenKeys m → t.getChild m k = some c →
            inBound off c = false) ∧
          (∀ p, t.node p.id = some p → Desc t r p → inBound off p = true →
            Desc t p m) := hspec
      obtain ⟨hibr, hment, hdesc, hibm, hchild, hlast⟩ := hspec2
      constructor
      · constructor
        · intro hnone
          have hnone2 : (if t.isGraphNode m = true then (some (m, FindKind.node) :
              Option (Node × FindKind))
              else some (m, if m.offset < off ∧ off ≤ m.offset + m.length then FindKind.value
                else FindKind.key)) = none := hnone
          by_cases hg : t.isGraphNode m = true
          · rw [if_pos hg] at hnone2
            exact absurd hnone2 (by simp)
          · rw [if_neg hg] at hnone2
            exact absurd hnone2 (by simp)
        · intro hfalse
          rw [hfalse] at hibr
          exact absurd hibr (by simp)
      · intro n kind hne
        have h : (if t.isGraphNode m = true then (some (m, FindKind.node) :
            Option (Node × FindKind))
            else some (m, if m.offset < off ∧ off ≤ m.offset + m.length then FindKind.value
              else FindKind.key)) = some (n, kind) := hne
        by_cases hg : t.isGraphNode m = true
        · rw [if_pos hg] at h
          injection h with h2
          injection h2 with h3 h4
          subst h3
          refine ⟨hdesc, hibm, hchild, ?_, fun _ => h4.symm, fun hgf => ?_⟩
          · intro p hdp hibp
            exact hlast p (Desc_entry hwf hdp hrent) hdp hibp
          · rw [hg] at hgf
            exact absurd hgf (by simp)
        · rw [if_neg hg] at h
          injection h with h2
          injection h2 with h3 h4
          subst h3
          refine ⟨hdesc, hibm, hchild, ?_, fun hgt => absurd hgt hg, fun _ => h4.symm⟩
          intro p hdp hibp
          exact hlast p (Desc_entry hwf hdp hrent) hdp hibp

/-- The concrete `{"a":1}` tree is well formed. -/
theorem exTree_WF : exTree.WF := by
  intro id n h
  have h' : (if ([] : List String) = id then some exRoot
      else if (["a"] : List String) = id then some exA else none) = some n := h
  by_cases h1 : ([] : List String) = id
  · rw [if_pos h1] at h'
    injection h' with h2
    subst h1
    rw [← h2]
    constructor
    · rfl
    · intro k hk
      have hk2 : k ∈ ["a"] := hk
      obtain rfl := List.mem_singleton.mp hk2
      decide
    · intro k c hk hc
      have hk2 : k ∈ ["a"] := hk
      obtain rfl := List.mem_singleton.mp hk2
      have hc2 : some exA = some c := hc
      injection hc2 with hc3
      rw [← hc3]
      decide
    · decide
    · refine List.Pairwise.cons ?_ List.Pairwise.nil
      intro b hb
      exact absurd hb (by simp)
  · rw [if_neg h1] at h'
    by_cases h2 : (["a"] : List String) = id
    · rw [if_pos h2] at h'
      injection h' with h3
      subst h2
      rw [← h3]
      constructor
      · rfl
      · intro k hk
        have hk2 : k ∈ ([] : List String) := hk
        exact absurd hk2 (by simp)
      · intro k c hk hc
        have hk2 : k ∈ ([] : List String) := hk
        exact absurd hk2 (by simp)
      · decide
      · exact List.Pairwise.nil
    · rw [if_neg h2] at h'
      exact absurd h' (by simp)

/-- Witness for C1 at the `{"a":1}` tree, offset 6 (just after the `1`). -/
theorem C1_witness : Desc exTree exRoot exA ∧ inBound 6 exA = true := by
  have h := (C1_findNodeAtOffset_correct exTree exRoot 6 exTree_WF (by decide) (by decide)).2
    exA FindKind.value (by decide)
  exact ⟨h.1, h.2.1⟩

/-! ### Claim C3: the patch engine -/

/-- The shift applied by `fixOffset` to a node after a pending sibling. -/
def shiftN (acc : Int) (m : Node) : Node :=
  { m with offset := m.offset + acc, boundOffset := m.boundOffset + acc }

/-- Every stored node has duplicate-free `childrenKeys`. -/
def NodupVals (t : Tree) : Prop := ∀ p ∈ t.nodeMap, p.2.childrenKeys.Nodup

instance (t : Tree) : Decidable (NodupVals t) := by
  unfold NodupVals
  infer_instance

theorem NodupVals_node {t : Tree} (h : NodupVals t) {id : List String} {n : Node}
    (hn : t.node id = some n) : n.childrenKeys.Nodup :=
  h (id, n) (lookupA_mem hn)

theorem NodupVals_setNode {t : Tree} (h : NodupVals t) {n : Node}
    (hn : n.childrenKeys.Nodup) : NodupVals (t.setNode n) := by
  intro p hp
  rcases mem_updateA hp with hq | hq
  · exact h p hq
  · rw [hq]
    exact hn

theorem shiftN_zero (m : Node) : shiftN 0 m = m := by
  cases m
  simp [shiftN]

theorem Desc_id_prefix {t : Tree} (hIdOk : IdOk t) {a m : Node} (hd : Desc t a m) :
    a.id <+: m.id := by
  induction hd with
  | refl n => exact List.prefix_rfl
  | child k hk hc h ih =>
    rename_i x y _
    have hy : y.id = x.id ++ [k] := node_id_of_IdOk hIdOk hc
    refine List.IsPrefix.trans ?_ ih
    rw [hy]
    exact List.prefix_append _ _

theorem Desc_entry_IdOk {t : Tree} (hIdOk : IdOk t) {a m : Node} (hd : Desc t a m) :
    t.node a.id = some a → t.node m.id = some m := by
  induction hd with
  | refl n => exact id
  | child k hk hc h ih =>
    intro _
    rename_i x y _
    have hx : t.node x.id = some x := by
      rw [node_id_of_IdOk hIdOk hc]
      exact hc
    exact ih hx

/-- Reachability only inspects entries below the starting node's id, so it
transfers between trees that agree there. -/
theorem Desc_congr_of_agree {t1 t2 : Tree} (hIdOk : IdOk t1) {a m : Node}
    (hd : Desc t1 a m) :
    (∀ id, a.id <+: id → t2.node id = t1.node id) → Desc t2 a m := by
  induction hd with
  | refl n => intro _; exact Desc.refl n
  | child k hk hc h ih =>
    intro hag
    rename_i x y _
    have hy : y.id = x.id ++ [k] := node_id_of_IdOk hIdOk hc
    have hc2 : t2.getChild x k = some y := by
      show t2.node (x.id ++ [k]) = some y
      rw [hag _ (List.prefix_append _ _)]
      exact hc
    refine Desc.child k hk hc2 (ih ?_)
    intro id hpre
    refine hag id ?_
    refine List.IsPrefix.trans ?_ hpre
    rw [hy]
    exact List.prefix_append _ _

theorem prefix_snoc_disjoint {base : List String} {k1 k2 : String} {id : List String}
    (h1 : (base ++ [k1]) <+: id) (h2 : (base ++ [k2]) <+: id) : k1 = k2 := by
  have hcmp := List.prefix_or_prefix_of_prefix h1 h2
  have hlen : (base ++ [k1]).length = (base ++ [k2]).length := by simp
  have heq : base ++ [k1] = base ++ [k2] := by
    rcases hcmp with h | h
    · exact h.eq_of_length hlen
    · exact (h.eq_of_length hlen.symm).symm
  have := List.append_cancel_left heq
  injection this with h3

theorem budgetAux_keys (l : List ((List String) × Node)) (id : List String) :
    budgetAux l id = ((l.map Prod.fst).filter (fun ks => decide (id.length ≤ ks.length))).length := by
  induction l with
  | nil => rfl
  | cons p rest ih =>
    obtain ⟨a, b⟩ := p
    rw [budgetAux, List.filter_cons, List.map_cons, List.filter_cons]
    rw [budgetAux] at ih
    cases hq : decide (id.length ≤ a.length) with
    | true => simp [hq, ih]
    | false => simp [hq, ih]

theorem budget_congr {t t' : Tree} (h : t'.nodeMap.map Prod.fst = t.nodeMap.map Prod.fst)
    (id : List String) : budgetId t' id = budgetId t id := by
  rw [budgetId, budgetAux_keys, h, ← budgetAux_keys]
  rfl

/-- On a subtree holding no pending nest id, `fixOffset` at shift `0` is a
no-op: it rewrites every visited node with unchanged fields and emits no
edit. -/
theorem fixOffset_noop (opts : StringifyOptions) :
    ∀ (fuel : Nat) (t : Tree) (v : Node) (edits : List Edit),
      IdOk t → t.node v.id = some v → budgetId t v.id < fuel →
      (∀ m, Desc t v m → m.id ∉ t.nestIds) →
      fixOffset opts fuel t v 0 edits = (t, 0, edits) := by
  intro fuel
  induction fuel with
  | zero => intro t v edits _ _ hbud _; exact absurd hbud (Nat.not_lt_zero _)
  | succ fuel ih =>
    intro t v edits hok hv hbud hno
    have hvn : v.id ∉ t.nestIds := hno v (Desc.refl v)
    have hdec : ¬ (decide (v.id ∈ t.nestIds) = true) := by simp [hvn]
    have hkeys : ∀ (keys : List String), (∀ k ∈ keys, k ∈ getChildrenKeys v) →
        ∀ (ed : List Edit),
        fixChildren (fun t2 c a e => fixOffset opts fuel t2 c a e) v keys t 0 ed
          = (t, 0, ed) := by
      intro keys
      induction keys with
      | nil => intro _ ed; rfl
      | cons k rest ihk =>
        intro hsub ed
        rw [fixChildren]
        cases hc : t.getChild v k with
        | none =>
          simp only [hc]
          exact ihk (fun k2 h2 => hsub k2 (List.mem_cons_of_mem _ h2)) ed
        | some c =>
          simp only [hc]
          have hkmem : k ∈ getChildrenKeys v := hsub k (List.mem_cons_self _ _)
          have hcid : c.id = v.id ++ [k] := node_id_of_IdOk hok hc
          have hcent : t.node c.id = some c := by rw [hcid]; exact hc
          have hbc : budgetId t c.id < fuel := by
            have h1 := budget_child_lt hv k
            rw [← hcid] at h1
            omega
          have hnoc : ∀ m, Desc t c m → m.id ∉ t.nestIds := fun m hm =>
            hno m (Desc.child k hkmem hc hm)
          rw [ih t c ed hok hcent hbc hnoc]
          exact ihk (fun k2 h2 => hsub k2 (List.mem_cons_of_mem _ h2)) ed
    rw [fixOffset, if_neg hdec]
    simp only []
    have hv0 : ({ v with offset := v.offset + 0, boundOffset := v.boundOffset + 0 } : Node) = v :=
      shiftN_zero v
    rw [hv0, setNode_eq_self t v hv]
    rw [hkeys (getChildrenKeys v) (fun k h => h) edits]
    simp only []
    rw [hv]
    simp only []
    have hv1 : ({ v with length := v.length + (0 - 0), boundLength := v.boundLength + (0 - 0) } : Node) = v := by
      cases v
      simp
    rw [hv1, setNode_eq_self t v hv]

/-- `fixChildren` only consults the node's id, so nodes with equal ids are
interchangeable. -/
theorem fixChildren_congr_node
    {recur : Tree → Node → Int → List Edit → Tree × Int × List Edit}
    {w v : Node} (hid : w.id = v.id) :
    ∀ (keys : List String) (tc : Tree) (a : Int) (e : List Edit),
      fixChildren recur w keys tc a e = fixChildren recur v keys tc a e := by
  intro keys
  induction keys with
  | nil => intro tc a e; rfl
  | cons k rest ih =>
    intro tc a e
    rw [fixChildren, fixChildren]
    have hg : tc.getChild w k = tc.getChild v k := by
      show tc.node (getChildId w k) = tc.node (getChildId v k)
      rw [getChildId, getChildId, hid]
    cases hc : tc.getChild w k with
    | none =>
      have hg2 : tc.getChild v k = none := by rw [← hg]; exact hc
      simp only [hc, hg2]
      exact ih tc a e
    | some c =>
      have hg2 : tc.getChild v k = some c := by rw [← hg]; exact hc
      simp only [hc, hg2]
      exact ih _ _ _

/-- On a subtree holding no pending nest id, `fixOffset` at shift `acc`
translates every node of the subtree by `acc`, leaves everything outside the
subtree alone, and emits no edit. -/
theorem fixOffset_shift (opts : StringifyOptions) :
    ∀ (fuel : Nat) (t : Tree) (v : Node) (acc : Int) (edits : List Edit),
      IdOk t → NodupVals t → t.node v.id = some v → budgetId t v.id < fuel →
      (∀ m, Desc t v m → m.id ∉ t.nestIds) →
      ∃ t', fixOffset opts fuel t v acc edits = (t', acc, edits) ∧
        IdOk t' ∧ NodupVals t' ∧ sameShape t t' ∧
        (∀ id, ¬ (v.id <+: id) → t'.node id = t.node id) ∧
        (∀ m, Desc t v m → t'.node m.id = some (shiftN acc m)) := by
  intro fuel
  induction fuel with
  | zero => intro t v acc edits _ _ _ hbud _; exact absurd hbud (Nat.not_lt_zero _)
  | succ fuel ih =>
    intro t v acc edits hok hnd hv hbud hno
    have hvn : v.id ∉ t.nestIds := hno v (Desc.refl v)
    have hdec : ¬ (decide (v.id ∈ t.nestIds) = true) := by simp [hvn]
    have inner : ∀ (keys : List String), keys.Nodup →
        (∀ k ∈ keys, k ∈ getChildrenKeys v) →
        ∀ (tc : Tree) (ed : List Edit),
        IdOk tc → NodupVals tc → sameShape t tc →
        (∀ k ∈ keys, ∀ id, (v.id ++ [k]) <+: id → tc.node id = t.node id) →
        ∃ tc', fixChildren (fun t2 c a e => fixOffset opts fuel t2 c a e) v keys tc acc ed
            = (tc', acc, ed) ∧
          IdOk tc' ∧ NodupVals tc' ∧ sameShape t tc' ∧
          (∀ id, (∀ k ∈ keys, ¬ (v.id ++ [k]) <+: id) → tc'.node id = tc.node id) ∧
          (∀ k ∈ keys, ∀ c, t.getChild v k = some c → ∀ m, Desc t c m →
            tc'.node m.id = some (shiftN acc m)) := by
      intro keys
      induction keys with
      | nil =>
        intro _ _ tc ed hokc hndc hshc _
        exact ⟨tc, rfl, hokc, hndc, hshc, fun id _ => rfl,
          fun k hk => absurd hk (List.not_mem_nil k)⟩
      | cons k rest ihk =>
        intro hnodup hsub tc ed hokc hndc hshc hagc
        have hknodup := List.nodup_cons.mp hnodup
        have hkmem : k ∈ getChildrenKeys v := hsub k (List.mem_cons_self _ _)
        have hagk : tc.node (v.id ++ [k]) = t.node (v.id ++ [k]) :=
          hagc k (List.mem_cons_self _ _) _ List.prefix_rfl
        rw [fixChildren]
        cases hc : tc.getChild v k with
        | none =>
          simp only [hc]
          have htc : t.getChild v k = none := by
            show t.node (v.id ++ [k]) = none
            rw [← hagk]; exact hc
          obtain ⟨tc', heq', hok', hnd', hsh', hout', hshift'⟩ :=
            ihk hknodup.2 (fun k2 h2 => hsub k2 (List.mem_cons_of_mem _ h2)) tc ed hokc hndc hshc
              (fun k2 h2 id hpre => hagc k2 (List.mem_cons_of_mem _ h2) id hpre)
          refine ⟨tc', heq', hok', hnd', hsh', ?_, ?_⟩
          · intro id hall
            exact hout' id (fun k2 h2 => hall k2 (List.mem_cons_of_mem _ h2))
          · intro k2 hk2 c2 hc2 m hm
            rcases List.mem_cons.mp hk2 with h | h
            · subst h
              rw [htc] at hc2
              exact absurd hc2 (by simp)
            · exact hshift' k2 h c2 hc2 m hm
        | some c =>
          simp only [hc]
          have htc : t.getChild v k = some c := by
            show t.node (v.id ++ [k]) = some c
            rw [← hagk]; exact hc
          have hcid : c.id = v.id ++ [k] := node_id_of_IdOk hokc hc
          have hcent : tc.node c.id = some c := by rw [hcid]; exact hc
          have hbc : budgetId tc c.id < fuel := by
            have h1 := budget_child_lt hv k
            rw [← hcid] at h1
            have h2 : budgetId tc c.id = budgetId t c.id := budget_congr hshc.2.2.2.2 c.id
            omega
          have hnestc : tc.nestIds = t.nestIds := hshc.2.2.2.1
          have hnoc : ∀ m, Desc tc c m → m.id ∉ tc.nestIds := by
            intro m hm
            have hmt : Desc t c m := Desc_congr_of_agree hokc hm
              (fun id hpre => (hagc k (List.mem_cons_self _ _) id (hcid ▸ hpre)).symm)
            rw [hnestc]
            exact hno m (Desc.child k hkmem htc hmt)
          obtain ⟨tc1, heq1, hok1, hnd1, hsh1, hout1, hshift1⟩ :=
            ih tc c acc ed hokc hndc hcent hbc hnoc
          rw [heq1]
          have hag1 : ∀ k2 ∈ rest, ∀ id, (v.id ++ [k2]) <+: id → tc1.node id = t.node id := by
            intro k2 h2 id hpre
            have hnk : ¬ (c.id <+: id) := by
              rw [hcid]
              intro hpre2
              refine hknodup.1 ?_
              rw [prefix_snoc_disjoint hpre2 hpre]
              exact h2
            rw [hout1 id hnk]
            exact hagc k2 (List.mem_cons_of_mem _ h2) id hpre
          obtain ⟨tc', heq', hok', hnd', hsh', hout', hshift'⟩ :=
            ihk hknodup.2 (fun k2 h2 => hsub k2 (List.mem_cons_of_mem _ h2)) tc1 ed hok1 hnd1
              (sameShape_trans hshc hsh1) hag1
          refine ⟨tc', heq', hok', hnd', hsh', ?_, ?_⟩
          · intro id hall
            have hnk : ¬ (c.id <+: id) := by
              rw [hcid]
              exact hall k (List.mem_cons_self _ _)
            rw [hout' id (fun k2 h2 => hall k2 (List.mem_cons_of_mem _ h2))]
            exact hout1 id hnk
          · intro k2 hk2 c2 hc2 m hm
            rcases List.mem_cons.mp hk2 with h | h
            · subst h
              rw [htc] at hc2
              injection hc2 with he
              subst he
              have hmtc : Desc tc c m := by
                refine Desc_congr_of_agree hok hm ?_
                intro id hpre
                have hpre2 : (v.id ++ [k2]) <+: id := by rw [← hcid]; exact hpre
                exact hagc k2 (List.mem_cons_self _ _) id hpre2
              have hpm : c.id <+: m.id := Desc_id_prefix hok hm
              have hpm2 : (v.id ++ [k2]) <+: m.id := by rw [← hcid]; exact hpm
              have hall : ∀ k3 ∈ rest, ¬ (v.id ++ [k3]) <+: m.id := by
                intro k3 h3 hpre
                have he2 : k3 = k2 := prefix_snoc_disjoint hpre hpm2
                rw [he2] at h3
                exact hknodup.1 h3
              rw [hout' m.id hall]
              exact hshift1 m hmtc
            · exact hshift' k2 h c2 hc2 m hm
    rw [fixOffset, if_neg hdec]
    simp only []
    have hv0 : ({ v with offset := v.offset + acc, boundOffset := v.boundOffset + acc } : Node) = shiftN acc v := rfl
    rw [hv0]
    have hid0 : (shiftN acc v).id = v.id := rfl
    have hkeq : getChildrenKeys (shiftN acc v) = getChildrenKeys v := rfl
    rw [hkeq, fixChildren_congr_node hid0]
    have hnodupkeys : (getChildrenKeys v).Nodup := NodupVals_node hnd hv
    have hvnodup : (shiftN acc v).childrenKeys.Nodup := hnodupkeys
    have hagt1 : ∀ k ∈ getChildrenKeys v, ∀ id, (v.id ++ [k]) <+: id →
        (t.setNode (shiftN acc v)).node id = t.node id := by
      intro k _ id hpre
      refine setNode_node_ne _ _ _ ?_
      intro he
      subst he
      have hl : (v.id ++ [k]).length ≤ v.id.length := hpre.length_le
      simp at hl
    obtain ⟨tc', heq', hok', hnd', hsh', hout', hshift'⟩ :=
      inner (getChildrenKeys v) hnodupkeys (fun k h => h)
        (t.setNode (shiftN acc v)) edits (IdOk_setNode hok _) (NodupVals_setNode hnd hvnodup)
        (sameShape_setNode t _) hagt1
    rw [heq']
    simp only []
    have hnotouch : ∀ k ∈ getChildrenKeys v, ¬ (v.id ++ [k]) <+: v.id := by
      intro k _ hpre
      have hl : (v.id ++ [k]).length ≤ v.id.length := hpre.length_le
      simp at hl
    have hroot : tc'.node v.id = some (shiftN acc v) := by
      rw [hout' v.id hnotouch]
      refine setNode_node_isSome t (shiftN acc v) v.id rfl ?_
      rw [hv]
      rfl
    rw [hroot]
    simp only []
    have hv1 : ({ shiftN acc v with length := (shiftN acc v).length + (acc - acc), boundLength := (shiftN acc v).boundLength + (acc - acc) } : Node) = shiftN acc v := by
      cases v
      simp [shiftN]
    have hroot2 : tc'.node (shiftN acc v).id = some (shiftN acc v) := hroot
    rw [hv1, setNode_eq_self tc' (shiftN acc v) hroot2]
    refine ⟨tc', rfl, hok', hnd', hsh', ?_, ?_⟩
    · intro id hnp
      have hne : id ≠ (shiftN acc v).id := fun h => hnp (by rw [h]; exact List.prefix_rfl)
      have hall : ∀ k ∈ getChildrenKeys v, ¬ (v.id ++ [k]) <+: id := by
        intro k _ hpre
        exact hnp (List.IsPrefix.trans (List.prefix_append _ _) hpre)
      rw [hout' id hall]
      exact setNode_node_ne _ _ _ hne
    · intro m hm
      cases hm with
      | refl => exact hroot
      | child k hk hc2 hd => exact hshift' k hk _ hc2 _ hd

/-- Writes of the child loop stay inside the parent's id-subtree. -/
theorem stringifyChildren_outside
    {recur : Tree → Node → Nat → Int → Int → String × Tree}
    (hrec : ∀ t n lvl o b, IdOk t →
      ((∀ id, ¬ (n.id <+: id) → (recur t n lvl o b).2.node id = t.node id) ∧
        IdOk (recur t n lvl o b).2))
    (node : Node) (isObject isFormat : Bool) (genTabs : Nat → String)
    (indentLevel : Nat) (offset : Int) :
    ∀ (keys : List String) (acc : String) (t : Tree), IdOk t →
      ((∀ id, ¬ (node.id <+: id) →
        (stringifyChildren recur node isObject isFormat genTabs indentLevel offset
          keys acc t).2.node id = t.node id) ∧
       IdOk (stringifyChildren recur node isObject isFormat genTabs indentLevel offset
          keys acc t).2) := by
  intro keys
  induction keys with
  | nil => intro acc t hok; exact ⟨fun id _ => rfl, hok⟩
  | cons key rest ih =>
    intro acc t hok
    rw [stringifyChildren]
    cases hc : t.getChild node key with
    | none =>
      simp only [hc]
      exact ih _ _ hok
    | some child =>
      simp only [hc]
      have hcid : child.id = node.id ++ [key] := node_id_of_IdOk hok hc
      obtain ⟨hout1, hok1⟩ := hrec t child _ _ _ hok
      obtain ⟨hout2, hok2⟩ := ih _ _ hok1
      refine ⟨?_, hok2⟩
      intro id hnp
      rw [hout2 id hnp, hout1 id ?_]
      intro hpre
      refine hnp (List.IsPrefix.trans ?_ hpre)
      rw [hcid]
      exact List.prefix_append _ _

/-- A stringify pass only writes entries whose id extends the stringified
node's id. -/
theorem stringifyNode_outside (opts : StringifyOptions) :
    ∀ (fuel : Nat) (t : Tree) (node : Node) (lvl : Nat) (off b : Int), IdOk t →
      ((∀ id, ¬ (node.id <+: id) →
        (stringifyNode opts fuel t node lvl off b).2.node id = t.node id) ∧
       IdOk (stringifyNode opts fuel t node lvl off b).2) := by
  intro fuel
  induction fuel with
  | zero => intro t node lvl off b hok; exact ⟨fun id _ => rfl, hok⟩
  | succ fuel ih =>
    intro t node lvl off b hok
    rw [stringifyNode]
    by_cases hit : isIterable node = true
    · by_cases hp : opts.pure = true
      · simp [hit, hp]
        exact stringifyChildren_outside (fun t2 n l o b2 hok2 => ih t2 n l o b2 hok2)
          _ _ _ _ _ _ _ _ _ hok
      · simp only [Bool.not_eq_true] at hp
        simp [hit, hp]
        have hok1 : IdOk (t.setNode { node with boundOffset := b, offset := off }) :=
          IdOk_setNode hok _
        obtain ⟨hout2, hok2⟩ := stringifyChildren_outside
          (fun t2 n l o b2 hok2 => ih t2 n l o b2 hok2) _ _ _ _ _ _ _ _
          (t.setNode { node with boundOffset := b, offset := off }) hok1
        refine ⟨?_, IdOk_setNode hok2 _⟩
        intro id hnp
        have hne : id ≠ node.id := fun h => hnp (h ▸ List.prefix_rfl)
        exact Eq.trans (setNode_node_ne _ _ _ hne)
          (Eq.trans (hout2 id hnp) (setNode_node_ne _ _ _ hne))
    · simp only [Bool.not_eq_true] at hit
      by_cases hp : opts.pure = true
      · simp [hit, hp]
        exact hok
      · simp only [Bool.not_eq_true] at hp
        simp [hit, hp]
        refine ⟨?_, IdOk_setNode hok _⟩
        intro id hnp
        have hne : id ≠ node.id := fun h => hnp (h ▸ List.prefix_rfl)
        exact setNode_node_ne _ _ _ hne

/-- The child loop preserves duplicate-freeness of all stored key lists. -/
theorem stringifyChildren_nodup
    {recur : Tree → Node → Nat → Int → Int → String × Tree}
    (hrec : ∀ t n lvl o b, NodupVals t → n.childrenKeys.Nodup →
      NodupVals (recur t n lvl o b).2)
    (node : Node) (isObject isFormat : Bool) (genTabs : Nat → String)
    (indentLevel : Nat) (offset : Int) :
    ∀ (keys : List String) (acc : String) (t : Tree), NodupVals t →
      NodupVals (stringifyChildren recur node isObject isFormat genTabs indentLevel offset
        keys acc t).2 := by
  intro keys
  induction keys with
  | nil => intro acc t hnd; exact hnd
  | cons key rest ih =>
    intro acc t hnd
    rw [stringifyChildren]
    cases hc : t.getChild node key with
    | none =>
      simp only [hc]
      exact ih _ _ hnd
    | some child =>
      simp only [hc]
      have hc2 : t.node (getChildId node key) = some child := hc
      have hcn : child.childrenKeys.Nodup := NodupVals_node hnd hc2
      exact ih _ _ (hrec t child _ _ _ hnd hcn)

/-- A stringify pass preserves duplicate-freeness of all stored key lists. -/
theorem stringifyNode_nodup (opts : StringifyOptions) :
    ∀ (fuel : Nat) (t : Tree) (node : Node) (lvl : Nat) (off b : Int),
      NodupVals t → node.childrenKeys.Nodup →
      NodupVals (stringifyNode opts fuel t node lvl off b).2 := by
  intro fuel
  induction fuel with
  | zero => intro t node lvl off b hnd _; exact hnd
  | succ fuel ih =>
    intro t node lvl off b hnd hkn
    rw [stringifyNode]
    by_cases hit : isIterable node = true
    · by_cases hp : opts.pure = true
      · simp [hit, hp]
        exact stringifyChildren_nodup (fun t2 n l o b2 h1 h2 => ih t2 n l o b2 h1 h2)
          _ _ _ _ _ _ _ _ _ hnd
      · simp only [Bool.not_eq_true] at hp
        simp [hit, hp]
        refine NodupVals_setNode ?_ hkn
        exact stringifyChildren_nodup (fun t2 n l o b2 h1 h2 => ih t2 n l o b2 h1 h2)
          _ _ _ _ _ _ _ _ _ (NodupVals_setNode hnd hkn)
    · simp only [Bool.not_eq_true] at hit
      by_cases hp : opts.pure = true
      · simp [hit, hp]
        exact hnd
      · simp only [Bool.not_eq_true] at hp
        simp [hit, hp]
        exact NodupVals_setNode hnd hkn

/-- Phase lemma for the sibling loop: a run of child subtrees all free of
pending nest ids is translated wholesale by the current shift, with the
accumulator and the edit list unchanged. -/
theorem fixChildren_shift (opts : StringifyOptions) (fuel : Nat) (t : Tree) (v : Node)
    (acc : Int) (hok : IdOk t) :
    ∀ (keys : List String), keys.Nodup →
      (∀ k ∈ keys, k ∈ getChildrenKeys v) →
      (∀ k ∈ keys, ∀ c, t.getChild v k = some c → budgetId t c.id < fuel) →
      (∀ k ∈ keys, ∀ c, t.getChild v k = some c → ∀ m, Desc t c m → m.id ∉ t.nestIds) →
      ∀ (tc : Tree) (ed : List Edit),
      IdOk tc → NodupVals tc → sameShape t tc →
      (∀ k ∈ keys, ∀ id, (v.id ++ [k]) <+: id → tc.node id = t.node id) →
      ∃ tc', fixChildren (fun t2 c a e => fixOffset opts fuel t2 c a e) v keys tc acc ed
          = (tc', acc, ed) ∧
        IdOk tc' ∧ NodupVals tc' ∧ sameShape t tc' ∧
        (∀ id, (∀ k ∈ keys, ¬ (v.id ++ [k]) <+: id) → tc'.node id = tc.node id) ∧
        (∀ k ∈ keys, ∀ c, t.getChild v k = some c → ∀ m, Desc t c m →
          tc'.node m.id = some (shiftN acc m)) := by
  intro keys
  induction keys with
  | nil =>
    intro _ _ _ _ tc ed hokc hndc hshc _
    exact ⟨tc, rfl, hokc, hndc, hshc, fun id _ => rfl,
      fun k hk => absurd hk (List.not_mem_nil k)⟩
  | cons k rest ihk =>
    intro hnodup hsub hbudh hnoh tc ed hokc hndc hshc hagc
    have hknodup := List.nodup_cons.mp hnodup
    have hkmem : k ∈ getChildrenKeys v := hsub k (List.mem_cons_self _ _)
    have hagk : tc.node (v.id ++ [k]) = t.node (v.id ++ [k]) :=
      hagc k (List.mem_cons_self _ _) _ List.prefix_rfl
    rw [fixChildren]
    cases hc : tc.getChild v k with
    | none =>
      simp only [hc]
      obtain ⟨tc', heq', hok', hnd', hsh', hout', hshift'⟩ :=
        ihk hknodup.2 (fun k2 h2 => hsub k2 (List.mem_cons_of_mem _ h2))
          (fun k2 h2 => hbudh k2 (List.mem_cons_of_mem _ h2))
          (fun k2 h2 => hnoh k2 (List.mem_cons_of_mem _ h2)) tc ed hokc hndc hshc
          (fun k2 h2 id hpre => hagc k2 (List.mem_cons_of_mem _ h2) id hpre)
      have htc : t.getChild v k = none := by
        show t.node (v.id ++ [k]) = none
        rw [← hagk]; exact hc
      refine ⟨tc', heq', hok', hnd', hsh', ?_, ?_⟩
      · intro id hall
        exact hout' id (fun k2 h2 => hall k2 (List.mem_cons_of_mem _ h2))
      · intro k2 hk2 c2 hc2 m hm
        rcases List.mem_cons.mp hk2 with h | h
        · subst h
          rw [htc] at hc2
          exact absurd hc2 (by simp)
        · exact hshift' k2 h c2 hc2 m hm
    | some c =>
      simp only [hc]
      have htc : t.getChild v k = some c := by
        show t.node (v.id ++ [k]) = some c
        rw [← hagk]; exact hc
      have hcid : c.id = v.id ++ [k] := node_id_of_IdOk hokc hc
      have hcent : tc.node c.id = some c := by rw [hcid]; exact hc
      have hbc : budgetId tc c.id < fuel := by
        have h1 := hbudh k (List.mem_cons_self _ _) c htc
        have h2 : budgetId tc c.id = budgetId t c.id := budget_congr hshc.2.2.2.2 c.id
        omega
      have hnestc : tc.nestIds = t.nestIds := hshc.2.2.2.1
      have hnoc : ∀ m, Desc tc c m → m.id ∉ tc.nestIds := by
        intro m hm
        have hmt : Desc t c m := by
          refine Desc_congr_of_agree hokc hm ?_
          intro id hpre
          have hpre2 : (v.id ++ [k]) <+: id := by rw [← hcid]; exact hpre
          exact (hagc k (List.mem_cons_self _ _) id hpre2).symm
        rw [hnestc]
        exact hnoh k (List.mem_cons_self _ _) c htc m hmt
      obtain ⟨tc1, heq1, hok1, hnd1, hsh1, hout1, hshift1⟩ :=
        fixOffset_shift opts fuel tc c acc ed hokc hndc hcent hbc hnoc
      rw [heq1]
      have hag1 : ∀ k2 ∈ rest, ∀ id, (v.id ++ [k2]) <+: id → tc1.node id = t.node id := by
        intro k2 h2 id hpre
        have hnk : ¬ (c.id <+: id) := by
          rw [hcid]
          intro hpre2
          refine hknodup.1 ?_
          rw [prefix_snoc_disjoint hpre2 hpre]
          exact h2
        rw [hout1 id hnk]
        exact hagc k2 (List.mem_cons_of_mem _ h2) id hpre
      obtain ⟨tc', heq', hok', hnd', hsh', hout', hshift'⟩ :=
        ihk hknodup.2 (fun k2 h2 => hsub k2 (List.mem_cons_of_mem _ h2))
          (fun k2 h2 => hbudh k2 (List.mem_cons_of_mem _ h2))
          (fun k2 h2 => hnoh k2 (List.mem_cons_of_mem _ h2)) tc1 ed hok1 hnd1
          (sameShape_trans hshc hsh1) hag1
      refine ⟨tc', heq', hok', hnd', hsh', ?_, ?_⟩
      · intro id hall
        have hnk : ¬ (c.id <+: id) := by
          rw [hcid]
          exact hall k (List.mem_cons_self _ _)
        rw [hout' id (fun k2 h2 => hall k2 (List.mem_cons_of_mem _ h2))]
        exact hout1 id hnk
      · intro k2 hk2 c2 hc2 m hm
        rcases List.mem_cons.mp hk2 with h | h
        · subst h
          rw [htc] at hc2
          injection hc2 with he
          subst he
          have hmtc : Desc tc c m := by
            refine Desc_congr_of_agree hok hm ?_
            intro id hpre
            have hpre2 : (v.id ++ [k2]) <+: id := by rw [← hcid]; exact hpre
            exact hagc k2 (List.mem_cons_self _ _) id hpre2
          have hpm : c.id <+: m.id := Desc_id_prefix hok hm
          have hpm2 : (v.id ++ [k2]) <+: m.id := by rw [← hcid]; exact hpm
          have hall : ∀ k3 ∈ rest, ¬ (v.id ++ [k3]) <+: m.id := by
            intro k3 h3 hpre
            have he2 : k3 = k2 := prefix_snoc_disjoint hpre hpm2
            rw [he2] at h3
            exact hknodup.1 h3
          rw [hout' m.id hall]
          exact hshift1 m hmtc
        · exact hshift' k2 h c2 hc2 m hm

/-- The replacement text the nest branch of `fixOffset` computes for the
pending node: a fresh non-shifted stringification of its subtree at its
current position. -/
def nestContent (opts : StringifyOptions) (t : Tree) (N : Node) : String :=
  (stringifyNode opts (t.nodeMap.length + 1) t N 0 (N.offset + 0) (N.boundOffset + 0)).1

/-- The emitted size delta of the replacement: new content length minus the
old span length. -/
def nestDelta (opts : StringifyOptions) (t : Tree) (N : Node) : Int :=
  strLen (nestContent opts t N) - N.length

/-- The single-pending-path lemma: `fixOffset` started with shift `0` at a
node `v` whose subtree holds exactly one pending nest node `N` emits exactly
one edit covering `N`'s old span, leaves entries outside `v`'s subtree
alone, returns the size delta as the accumulated shift, and shifts every
node of `v`'s subtree lying after `N` in source order by that delta. -/
theorem fixOffset_master (opts : StringifyOptions) (t : Tree) (N : Node)
    (hok : IdOk t) (hnd : NodupVals t) (hwf : t.WF)
    (hbl : ∀ p ∈ t.nodeMap, 0 < p.2.boundLength)
    (hNpend : N.id ∈ t.nestIds) :
    ∀ (fuel : Nat) (v : Node) (ed : List Edit),
      t.node v.id = some v → budgetId t v.id < fuel → Desc t v N →
      (∀ m, Desc t v m → m.id ∈ t.nestIds → m = N) →
      ∃ t', fixOffset opts fuel t v 0 ed
          = (t', nestDelta opts t N, ed ++ [⟨N.offset, N.length, nestContent opts t N⟩]) ∧
        IdOk t' ∧ NodupVals t' ∧ sameShape t t' ∧
        (∀ id, ¬ (v.id <+: id) → t'.node id = t.node id) ∧
        (∀ m, Desc t v m → bEnd N ≤ m.boundOffset →
          t'.node m.id = some (shiftN (nestDelta opts t N) m)) := by
  intro fuel
  induction fuel with
  | zero => intro v ed _ hbud _ _; exact absurd hbud (Nat.not_lt_zero _)
  | succ fuel ih =>
    intro v ed hv hbud hpath huniq
    by_cases hvN : v = N
    · have hvpend : v.id ∈ t.nestIds := by rw [hvN]; exact hNpend
      have hNent : t.node N.id = some N := by rw [← hvN]; exact hv
      have hdec : decide (v.id ∈ t.nestIds) = true := by simp [hvpend]
      rw [fixOffset, if_pos hdec]
      simp only []
      rw [hvN]
      refine ⟨(stringifyNode opts (t.nodeMap.length + 1) t N 0 (N.offset + 0)
        (N.boundOffset + 0)).2, ?_, ?_, ?_, ?_, ?_, ?_⟩
      · simp only [nestDelta, nestContent, zero_add]
      · exact (stringifyNode_outside opts (t.nodeMap.length + 1) t N 0 (N.offset + 0)
          (N.boundOffset + 0) hok).2
      · exact stringifyNode_nodup opts (t.nodeMap.length + 1) t N 0 (N.offset + 0)
          (N.boundOffset + 0) hnd (NodupVals_node hnd hNent)
      · exact stringifyNode_shape opts _ t N 0 _ _
      · exact (stringifyNode_outside opts (t.nodeMap.length + 1) t N 0 (N.offset + 0)
          (N.boundOffset + 0) hok).1
      · intro m hm hafter
        exfalso
        have hb := Desc_bounds hwf hm hNent
        have hment : t.node m.id = some m := Desc_entry hwf hm hNent
        have hmbl : 0 < m.boundLength := hbl (m.id, m) (lookupA_mem hment)
        have h1 : m.boundOffset + m.boundLength ≤ m.boundOffset := le_trans hb.2 hafter
        omega
    · have hvnp : v.id ∉ t.nestIds := fun hmem => hvN (huniq v (Desc.refl v) hmem)
      have hdec : ¬ (decide (v.id ∈ t.nestIds) = true) := by simp [hvnp]
      have hNent : t.node N.id = some N := Desc_entry hwf hpath hv
      have hNbl : 0 < N.boundLength := hbl (N.id, N) (lookupA_mem hNent)
      cases hpath with
      | refl => exact absurd rfl hvN
      | @child _ cstar _ kstar hkstar hcstar hdstar =>
        have hcsid : cstar.id = v.id ++ [kstar] := node_id_of_IdOk hok hcstar
        have hcsent : t.node cstar.id = some cstar := by rw [hcsid]; exact hcstar
        have inner : ∀ (keys : List String), keys.Nodup →
            (keys.Pairwise (fun k1 k2 => ∀ c1 c2, t.node (v.id ++ [k1]) = some c1 →
              t.node (v.id ++ [k2]) = some c2 → bEnd c1 ≤ c2.boundOffset)) →
            (∀ k ∈ keys, k ∈ getChildrenKeys v) → kstar ∈ keys →
            ∀ (ed2 : List Edit),
            ∃ tc', fixChildren (fun t2 c a e => fixOffset opts fuel t2 c a e) v keys t 0 ed2
                = (tc', nestDelta opts t N,
                   ed2 ++ [⟨N.offset, N.length, nestContent opts t N⟩]) ∧
              IdOk tc' ∧ NodupVals tc' ∧ sameShape t tc' ∧
              (∀ id, (∀ k ∈ keys, ¬ (v.id ++ [k]) <+: id) → tc'.node id = t.node id) ∧
              (∀ m, bEnd N ≤ m.boundOffset →
                (∃ k, k ∈ keys ∧ ∃ c, t.getChild v k = some c ∧ Desc t c m) →
                tc'.node m.id = some (shiftN (nestDelta opts t N) m)) := by
          intro keys
          induction keys with
          | nil => intro _ _ _ hkin _; exact absurd hkin (List.not_mem_nil kstar)
          | cons k rest ihk =>
            intro hnodup hpair hsub hkin ed2
            have hknodup := List.nodup_cons.mp hnodup
            have hpairtail := List.pairwise_cons.mp hpair
            rw [fixChildren]
            by_cases hkk : k = kstar
            · have hck : t.getChild v k = some cstar := by rw [hkk]; exact hcstar
              simp only [hck]
              have hbc : budgetId t cstar.id < fuel := by
                have h1 := budget_child_lt hv kstar
                rw [← hcsid] at h1
                omega
              have huniqc : ∀ m, Desc t cstar m → m.id ∈ t.nestIds → m = N := fun m hm hmem =>
                huniq m (Desc.child kstar hkstar hcstar hm) hmem
              obtain ⟨t1, heq1, hok1, hnd1, hsh1, hout1, hshift1⟩ :=
                ih cstar ed2 hcsent hbc hdstar huniqc
              rw [heq1]
              have hbud2 : ∀ k2 ∈ rest, ∀ c, t.getChild v k2 = some c →
                  budgetId t c.id < fuel := by
                intro k2 h2 c hc
                have hcid2 : c.id = v.id ++ [k2] := node_id_of_IdOk hok hc
                have h1 := budget_child_lt hv k2
                rw [← hcid2] at h1
                omega
              have hnop2 : ∀ k2 ∈ rest, ∀ c, t.getChild v k2 = some c →
                  ∀ m, Desc t c m → m.id ∉ t.nestIds := by
                intro k2 h2 c hc m hm hmem
                have hmN : m = N :=
                  huniq m (Desc.child k2 (hsub k2 (List.mem_cons_of_mem _ h2)) hc hm) hmem
                rw [hmN] at hm
                have hcid2 : c.id = v.id ++ [k2] := node_id_of_IdOk hok hc
                have hp1 : (v.id ++ [k2]) <+: N.id := by
                  rw [← hcid2]; exact Desc_id_prefix hok hm
                have hp2 : (v.id ++ [kstar]) <+: N.id := by
                  rw [← hcsid]; exact Desc_id_prefix hok hdstar
                have he2 : k2 = kstar := prefix_snoc_disjoint hp1 hp2
                rw [he2] at h2
                rw [← hkk] at h2
                exact hknodup.1 h2
              have hag2 : ∀ k2 ∈ rest, ∀ id, (v.id ++ [k2]) <+: id →
                  t1.node id = t.node id := by
                intro k2 h2 id hpre
                refine hout1 id ?_
                rw [hcsid]
                intro hpre2
                have he2 : kstar = k2 := prefix_snoc_disjoint hpre2 hpre
                rw [← he2] at h2
                rw [← hkk] at h2
                exact hknodup.1 h2
              obtain ⟨tc', heq', hok', hnd', hsh', hout', hshift'⟩ :=
                fixChildren_shift opts fuel t v (nestDelta opts t N) hok rest hknodup.2
                  (fun k2 h2 => hsub k2 (List.mem_cons_of_mem _ h2)) hbud2 hnop2 t1
                  (ed2 ++ [⟨N.offset, N.length, nestContent opts t N⟩]) hok1 hnd1 hsh1 hag2
              refine ⟨tc', heq', hok', hnd', hsh', ?_, ?_⟩
              · intro id hall
                rw [hout' id (fun k2 h2 => hall k2 (List.mem_cons_of_mem _ h2))]
                refine hout1 id ?_
                rw [hcsid]
                rw [← hkk]
                exact hall k (List.mem_cons_self _ _)
              · intro m hafter hex
                rcases hex with ⟨k2, hk2, c2, hc2, hm2⟩
                rcases List.mem_cons.mp hk2 with h | h
                · rw [h] at hc2
                  rw [hck] at hc2
                  injection hc2 with he
                  rw [← he] at hm2
                  have hpm : cstar.id <+: m.id := Desc_id_prefix hok hm2
                  have hall : ∀ k3 ∈ rest, ¬ (v.id ++ [k3]) <+: m.id := by
                    intro k3 h3 hpre
                    have hpm2 : (v.id ++ [kstar]) <+: m.id := by rw [← hcsid]; exact hpm
                    have he2 : k3 = kstar := prefix_snoc_disjoint hpre hpm2
                    rw [he2] at h3
                    rw [← hkk] at h3
                    exact hknodup.1 h3
                  rw [hout' m.id hall]
                  exact hshift1 m hm2 hafter
                · exact hshift' k2 h c2 hc2 m hm2
            · have hkin' : kstar ∈ rest := by
                rcases List.mem_cons.mp hkin with h | h
                · exact absurd h.symm hkk
                · exact h
              cases hc : t.getChild v k with
              | none =>
                simp only [hc]
                obtain ⟨tc', heq', hok', hnd', hsh', hout', hshift'⟩ :=
                  ihk hknodup.2 hpairtail.2 (fun k2 h2 => hsub k2 (List.mem_cons_of_mem _ h2))
                    hkin' ed2
                refine ⟨tc', heq', hok', hnd', hsh', ?_, ?_⟩
                · intro id hall
                  exact hout' id (fun k2 h2 => hall k2 (List.mem_cons_of_mem _ h2))
                · intro m hafter hex
                  rcases hex with ⟨k2, hk2, c2, hc2, hm2⟩
                  rcases List.mem_cons.mp hk2 with h | h
                  · rw [h] at hc2
                    rw [hc] at hc2
                    exact absurd hc2 (by simp)
                  · exact hshift' m hafter ⟨k2, h, c2, hc2, hm2⟩
              | some c =>
                simp only [hc]
                have hcid2 : c.id = v.id ++ [k] := node_id_of_IdOk hok hc
                have hcent2 : t.node c.id = some c := by rw [hcid2]; exact hc
                have hbc : budgetId t c.id < fuel := by
                  have h1 := budget_child_lt hv k
                  rw [← hcid2] at h1
                  omega
                have hnoc : ∀ m, Desc t c m → m.id ∉ t.nestIds := by
                  intro m hm hmem
                  have hmN : m = N :=
                    huniq m (Desc.child k (hsub k (List.mem_cons_self _ _)) hc hm) hmem
                  rw [hmN] at hm
                  have hp1 : (v.id ++ [k]) <+: N.id := by
                    rw [← hcid2]; exact Desc_id_prefix hok hm
                  have hp2 : (v.id ++ [kstar]) <+: N.id := by
                    rw [← hcsid]; exact Desc_id_prefix hok hdstar
                  exact hkk (prefix_snoc_disjoint hp1 hp2)
                rw [fixOffset_noop opts fuel t c ed2 hok hcent2 hbc hnoc]
                obtain ⟨tc', heq', hok', hnd', hsh', hout', hshift'⟩ :=
                  ihk hknodup.2 hpairtail.2 (fun k2 h2 => hsub k2 (List.mem_cons_of_mem _ h2))
                    hkin' ed2
                refine ⟨tc', heq', hok', hnd', hsh', ?_, ?_⟩
                · intro id hall
                  exact hout' id (fun k2 h2 => hall k2 (List.mem_cons_of_mem _ h2))
                · intro m hafter hex
                  rcases hex with ⟨k2, hk2, c2, hc2, hm2⟩
                  rcases List.mem_cons.mp hk2 with h | h
                  · rw [h] at hc2
                    rw [hc] at hc2
                    injection hc2 with he
                    rw [← he] at hm2
                    exfalso
                    have hn1 : t.node (v.id ++ [k]) = some c := by rw [← hcid2]; exact hcent2
                    have hn2 : t.node (v.id ++ [kstar]) = some cstar := by
                      rw [← hcsid]; exact hcsent
                    have hR : bEnd c ≤ cstar.boundOffset := hpairtail.1 kstar hkin' c cstar hn1 hn2
                    have hmb := Desc_bounds hwf hm2 hcent2
                    have hment : t.node m.id = some m := Desc_entry hwf hm2 hcent2
                    have hmbl : 0 < m.boundLength := hbl (m.id, m) (lookupA_mem hment)
                    have hNb : cstar.boundOffset ≤ N.boundOffset := (Desc_bounds hwf hdstar hcsent).1
                    have h1 : m.boundOffset + m.boundLength ≤ bEnd c := hmb.2
                    have h2 : N.boundOffset + N.boundLength ≤ m.boundOffset := hafter
                    omega
                  · exact hshift' m hafter ⟨k2, h, c2, hc2, hm2⟩
        rw [fixOffset, if_neg hdec]
        simp only []
        have hv0 : ({ v with offset := v.offset + 0, boundOffset := v.boundOffset + 0 } : Node) = v :=
          shiftN_zero v
        rw [hv0, setNode_eq_self t v hv]
        obtain ⟨tc', heq', hok', hnd', hsh', hout', hshift'⟩ :=
          inner (getChildrenKeys v) (NodupVals_node hnd hv) (hwf v.id v hv).ordered
            (fun k h => h) hkstar ed
        rw [heq']
        simp only []
        have hvout : tc'.node v.id = t.node v.id := by
          refine hout' v.id ?_
          intro k2 _ hpre
          have hl : (v.id ++ [k2]).length ≤ v.id.length := hpre.length_le
          simp at hl
        rw [hvout, hv]
        simp only []
        refine ⟨_, rfl, IdOk_setNode hok' _, ?_, sameShape_trans hsh' (sameShape_setNode tc' _), ?_, ?_⟩
        · have hvkn : v.childrenKeys.Nodup := NodupVals_node hnd hv
          exact NodupVals_setNode hnd' hvkn
        · intro id hnp
          have hne : id ≠ v.id := fun h => hnp (h ▸ List.prefix_rfl)
          refine Eq.trans (setNode_node_ne _ _ _ hne) ?_
          refine hout' id ?_
          intro k2 _ hpre
          exact hnp (List.IsPrefix.trans (List.prefix_append _ _) hpre)
        · intro m hm hafter
          cases hm with
          | refl =>
            exfalso
            have hvb : v.boundOffset ≤ N.boundOffset :=
              (Desc_bounds hwf (Desc.child kstar hkstar hcstar hdstar) hv).1
            have h2 : N.boundOffset + N.boundLength ≤ v.boundOffset := hafter
            omega
          | @child _ c2 _ k2 hk2 hc2 hd2 =>
            have hcid2 : c2.id = v.id ++ [k2] := node_id_of_IdOk hok hc2
            have hpm : (v.id ++ [k2]) <+: m.id := by
              rw [← hcid2]; exact Desc_id_prefix hok hd2
            have hne : m.id ≠ v.id := by
              intro he
              rw [he] at hpm
              have hl : (v.id ++ [k2]).length ≤ v.id.length := hpm.length_le
              simp at hl
            refine Eq.trans (setNode_node_ne _ _ _ hne) ?_
            exact hshift' m hafter ⟨k2, hk2, c2, hc2, hd2⟩

/-- C3: on a well-formed tree, when the pending nest map contains no node
of the tree, `stringifyNestNodes` returns the tree unchanged except that the
text is trimmed (so no node's `offset`/`length`/`boundOffset`/`boundLength`
changes); when exactly one node `N` is pending, the resulting text is the
original text with exactly `N`'s original span `[offset, offset+length)`
replaced by the freshly emitted content (then trimmed), and every node lying
after `N` in source order has its `offset` (and `boundOffset`) shifted by
exactly the emitted size delta `strLen(content) - N.length`. -/
theorem C3_patch_engine (opts : StringifyOptions) (t : Tree) (r : Node)
    (hok : IdOk t) (hnd : NodupVals t) (hwf : t.WF)
    (hbl : ∀ p ∈ t.nodeMap, 0 < p.2.boundLength)
    (hroot : t.root = some r) :
    ((∀ p ∈ t.nodeMap, p.1 ∉ t.nestIds) →
      t.stringifyNestNodes opts = { t with text := t.text.trim }) ∧
    (∀ N, N.id ∈ t.nestIds → Desc t r N →
      (∀ m, Desc t r m → m.id ∈ t.nestIds → m = N) →
      (t.stringifyNestNodes opts).text
          = (applyEdit t.text ⟨N.offset, N.length, nestContent opts t N⟩).trim ∧
      (∀ m, Desc t r m → bEnd N ≤ m.boundOffset →
        (t.stringifyNestNodes opts).node m.id
          = some (shiftN (nestDelta opts t N) m))) := by
  have hrid : r.id = rootMarker := node_id_of_IdOk hok hroot
  have hrent : t.node r.id = some r := by rw [hrid]; exact hroot
  have hbud : budgetId t r.id < t.nodeMap.length + 1 :=
    Nat.lt_succ_of_le (budget_le_length t r.id)
  constructor
  · intro hnone
    have hno : ∀ m, Desc t r m → m.id ∉ t.nestIds := by
      intro m hm
      have hment : t.node m.id = some m := Desc_entry_IdOk hok hm hrent
      exact hnone (m.id, m) (lookupA_mem hment)
    simp only [Tree.stringifyNestNodes, hroot]
    rw [fixOffset_noop opts (t.nodeMap.length + 1) t r [] hok hrent hbud hno]
    rfl
  · intro N hNpend hdesc huniq
    obtain ⟨t', heq, hok', hnd', hsh', hout', hshift'⟩ :=
      fixOffset_master opts t N hok hnd hwf hbl hNpend (t.nodeMap.length + 1) r []
        hrent hbud hdesc huniq
    constructor
    · simp only [Tree.stringifyNestNodes, hroot]
      rw [heq]
      simp only []
      rw [hsh'.1]
      rfl
    · intro m hm hafter
      simp only [Tree.stringifyNestNodes, hroot]
      rw [heq]
      exact hshift' m hm hafter

/-- A concrete run of the no-pending branch of C3 on the sample tree. -/
theorem C3_witness :
    exTree.stringifyNestNodes exOpts = { exTree with text := exTree.text.trim } :=
  (C3_patch_engine exOpts exTree exRoot (by decide) (by decide) exTree_WF (by decide)
    (by decide)).1 (by decide)

end Json4u
